import Mathlib

/-!
# Real-address resolution of `network/ws` (`real_ip.go`, `server_options.go`)

A shallow embedding of `resolveRealIP`, `parseXForwardedFor`, `parseIPToken`
and `parseRealIPMode`, together with the parts of the Go standard library they
call (`strings.Trim`, `strings.TrimSpace`, `strings.ToLower`, `strings.Split`,
`net.SplitHostPort`, `net.ParseIP`, `net.IP.String`).

Go strings are modelled as lists of Unicode code points (`List Char`), the
empty string being `[]`.  Every byte the code under study inspects is ASCII, so
the code-point view and the byte view of a well-formed UTF-8 string coincide on
them.

The library functions follow the Go standard library as it is since
`net.ParseIP` delegates to `netip.ParseAddr`: `net.ParseIP` returns the 16-byte
form of the address and refuses a zone, `IP.String` writes an IPv4 or
IPv4-mapped address in dotted decimal and any other address in the compressed
hexadecimal notation of `netip.Addr.String`.  A loop of the library or of the
package is a recursion on the number of iterations it has left; a run-time
panic (an index out of range) is the result `none` of `parseXForwardedFor` and
`resolveRealIP`.
-/

namespace Ws

/-- A Go `string`, as the list of its code points. -/
abbrev Str := List Char

/-! ## Package `strings` -/

namespace strings

/-- The predicate `unicode.IsSpace`: the white-space code points of Unicode. -/
def isSpace (c : Char) : Bool :=
  let n := c.toNat
  n == 9 || n == 10 || n == 11 || n == 12 || n == 13 || n == 32 ||
  n == 0x85 || n == 0xA0 || n == 0x1680 || (0x2000 ≤ n && n ≤ 0x200A) ||
  n == 0x2028 || n == 0x2029 || n == 0x202F || n == 0x205F || n == 0x3000

/-- The function `strings.TrimLeftFunc`: drop the leading code points satisfying `f`. -/
def TrimLeftFunc (s : Str) (f : Char → Bool) : Str :=
  s.dropWhile f

/-- The function `strings.TrimRightFunc`: drop the trailing code points satisfying `f`. -/
def TrimRightFunc (s : Str) (f : Char → Bool) : Str :=
  (s.reverse.dropWhile f).reverse

/-- The function `strings.TrimFunc`: drop leading and trailing code points satisfying `f`. -/
def TrimFunc (s : Str) (f : Char → Bool) : Str :=
  TrimRightFunc (TrimLeftFunc s f) f

/-- The function `strings.TrimSpace`: all leading and trailing white space removed. -/
def TrimSpace (s : Str) : Str :=
  TrimFunc s isSpace

/-- The function `strings.Trim`: all leading and trailing code points contained
in `cutset` removed (every layer of them, not only one). -/
def Trim (s : Str) (cutset : Str) : Str :=
  TrimFunc s (fun c => decide (c ∈ cutset))

/-- The mapping `unicode.ToLower` on one code point.  The ASCII letters are
mapped exactly.  Of the code points outside ASCII only the two whose lower case
is an ASCII letter are mapped (U+0130 to `i`, U+212A to `k`); the others are left
as they are, which cannot be observed by a comparison with an ASCII string. -/
def toLowerRune (c : Char) : Char :=
  if 65 ≤ c.toNat ∧ c.toNat ≤ 90 then Char.ofNat (c.toNat + 32)
  else if c.toNat = 0x130 then 'i'
  else if c.toNat = 0x212A then 'k'
  else c

/-- The function `strings.ToLower`. -/
def ToLower (s : Str) : Str :=
  s.map toLowerRune

/-- The function `strings.Split` for a separator of one code point: the pieces
of `s` between the occurrences of `sep`, one more than there are occurrences. -/
def Split : Str → Char → List Str
  | [], _ => [[]]
  | c :: cs, sep =>
    if c = sep then [] :: Split cs sep
    else
      match Split cs sep with
      | [] => [[c]]
      | t :: ts => (c :: t) :: ts

end strings

/-! ## Package `net` -/

namespace net

/-- An IP address as `net.IP`: a slice of bytes. -/
abbrev IP := List Nat

/-- The table `digits` of `net/netip`. -/
def digits : List Char := "0123456789abcdef".toList

/-- One hexadecimal digit of `parseIPv6`: its value, or `none` for another character. -/
def hexVal (c : Char) : Option Nat :=
  if 48 ≤ c.toNat ∧ c.toNat ≤ 57 then some (c.toNat - 48)
  else if 97 ≤ c.toNat ∧ c.toNat ≤ 102 then some (c.toNat - 97 + 10)
  else if 65 ≤ c.toNat ∧ c.toNat ≤ 70 then some (c.toNat - 65 + 10)
  else none

/-- The state of the loop of `parseIPv4Fields`: the octet being read, the number
of octets stored, the number of digits of the current octet, the octets stored. -/
structure V4State where
  val : Nat
  pos : Nat
  digLen : Nat
  fields : List Nat
deriving DecidableEq, Repr

/-- The loop of `netip.parseIPv4Fields` over the characters not yet read.
`prev` is the character before the current one (`none` at index 0). -/
def parseIPv4FieldsLoop : List Char → Option Char → V4State → Option V4State
  | [], _, st => some st
  | c :: cs, prev, st =>
    if 48 ≤ c.toNat ∧ c.toNat ≤ 57 then
      if st.digLen = 1 ∧ st.val = 0 then none
      else
        let val := st.val * 10 + (c.toNat - 48)
        if val > 255 then none
        else parseIPv4FieldsLoop cs (some c)
          { val := val, pos := st.pos, digLen := st.digLen + 1, fields := st.fields }
    else if c = '.' then
      if prev = none ∨ cs = [] ∨ prev = some '.' then none
      else if st.pos = 3 then none
      else parseIPv4FieldsLoop cs (some c)
        { val := 0, pos := st.pos + 1, digLen := 0, fields := st.fields ++ [st.val] }
    else none

/-- The function `netip.parseIPv4Fields` on the substring `s`: the four octets. -/
def parseIPv4Fields (s : List Char) : Option (List Nat) :=
  match parseIPv4FieldsLoop s none { val := 0, pos := 0, digLen := 0, fields := [] } with
  | none => none
  | some st => if st.pos < 3 then none else some (st.fields ++ [st.val])

/-- The 16-byte form (`Addr.As16`) of an IPv4 address: the IPv4-mapped IPv6 address. -/
def v4InV6 (f : List Nat) : IP :=
  [0, 0, 0, 0, 0, 0, 0, 0, 0, 0, 255, 255] ++ f

/-- The inner loop of `parseIPv6` reading one hexadecimal number: the value,
the number of digits read and the characters left, or `none` for a number of
more than four digits or above `0xffff`. -/
def hexRun : List Char → Nat → Nat → Option (Nat × Nat × List Char)
  | [], acc, off => some (acc, off, [])
  | c :: cs, acc, off =>
    match hexVal c with
    | none => some (acc, off, c :: cs)
    | some d =>
      let acc := acc * 16 + d
      if off > 3 then none
      else if acc > 65535 then none
      else hexRun cs acc (off + 1)

/-- The state of the main loop of `parseIPv6` at its exit. -/
structure V6State where
  rest : List Char
  i : Nat
  ellipsis : Option Nat
  ip : List Nat
deriving DecidableEq, Repr

/-- The main loop `for i < 16` of `netip.parseIPv6`.  The first argument counts
the 16-bit groups still free (`i = 16 - 2 * fuel`), so that `fuel = 0` is the
exit of the loop by its condition.  `ip` holds the bytes written so far
(`ip[0:i]`), `ellipsis` is `none` for `-1`. -/
def parseIPv6Loop : Nat → List Char → Nat → Option Nat → List Nat → Option V6State
  | 0, s, i, ellipsis, ip => some { rest := s, i := i, ellipsis := ellipsis, ip := ip }
  | fuel + 1, s, i, ellipsis, ip =>
    match hexRun s 0 0 with
    | none => none
    | some (acc, off, rest) =>
      if off = 0 then none
      else if rest.head? = some '.' then
        if ellipsis = none ∧ i ≠ 12 then none
        else if i + 4 > 16 then none
        else
          match parseIPv4Fields s with
          | none => none
          | some f => some { rest := [], i := i + 4, ellipsis := ellipsis, ip := ip ++ f }
      else
        let ip := ip ++ [acc / 256, acc % 256]
        let i := i + 2
        match rest with
        | [] => some { rest := [], i := i, ellipsis := ellipsis, ip := ip }
        | c :: rest1 =>
          if c ≠ ':' then none
          else
            match rest1 with
            | [] => none
            | c1 :: rest2 =>
              if c1 = ':' then
                if ellipsis ≠ none then none
                else
                  match rest2 with
                  | [] => some { rest := [], i := i, ellipsis := some i, ip := ip }
                  | _ :: _ => parseIPv6Loop fuel rest2 i (some i) ip
              else parseIPv6Loop fuel rest1 i ellipsis ip

/-- The end of `netip.parseIPv6`, after its main loop: the whole string must
be used, and an address that is too short is filled with zeros at the ellipsis. -/
def parseIPv6Finish (st : V6State) : Option IP :=
  if st.rest ≠ [] then none
  else if st.i < 16 then
    match st.ellipsis with
    | none => none
    | some e => some (st.ip.take e ++ List.replicate (16 - st.i) 0 ++ st.ip.drop e)
  else if st.ellipsis ≠ none then none
  else some st.ip

/-- The part of `netip.parseIPv6` after the zone is split off: the 16 bytes
of the address written in `s`. -/
def parseIPv6Addr (s : List Char) : Option IP :=
  let lead := decide (2 ≤ s.length ∧ s.head? = some ':' ∧ (s.drop 1).head? = some ':')
  let s1 := if lead then s.drop 2 else s
  let ellipsis : Option Nat := if lead then some 0 else none
  if lead ∧ s1 = [] then some (List.replicate 16 0)
  else
    match parseIPv6Loop 8 s1 0 ellipsis [] with
    | none => none
    | some st => parseIPv6Finish st

/-- The function `netip.parseIPv6`: the 16 bytes and the zone.  The zone, what
follows the first `%`, is split off first and must not be empty. -/
def parseIPv6 (input : List Char) : Option (IP × Str) :=
  let s := input.takeWhile (fun c => c ≠ '%')
  let hasZone := decide ('%' ∈ input)
  let zone := (input.dropWhile (fun c => c ≠ '%')).drop 1
  if hasZone ∧ zone = [] then none
  else
    match parseIPv6Addr s with
    | none => none
    | some ip => some (ip, zone)

/-- The scan of `netip.ParseAddr` for the first of the characters `.`, `:`, `%`. -/
def firstSep : List Char → Option Char
  | [] => none
  | c :: cs => if c = '.' ∨ c = ':' ∨ c = '%' then some c else firstSep cs

/-- The function `netip.ParseAddr`: the 16-byte form of the address and its zone. -/
def ParseAddr (s : Str) : Option (IP × Str) :=
  match firstSep s with
  | none => none
  | some c =>
    if c = '.' then
      match parseIPv4Fields s with
      | none => none
      | some f => some (v4InV6 f, [])
    else if c = ':' then parseIPv6 s
    else none

/-- The function `net.ParseIP`: the address in 16-byte form, `none` for `nil`.
An address with a zone is refused. -/
def ParseIP (s : Str) : Option IP :=
  match ParseAddr s with
  | none => none
  | some (ip, zone) => if zone ≠ [] then none else some ip

/-- The function `isZeros` of package `net`. -/
def isZeros (p : IP) : Bool :=
  p.all (fun b => b == 0)

/-- The method `IP.To4`: the 4-byte form of an IPv4 address, `none` for `nil`. -/
def To4 (ip : IP) : Option IP :=
  if ip.length = 4 then some ip
  else if ip.length = 16 ∧ isZeros (ip.take 10) = true ∧ ip.getD 10 0 = 255 ∧ ip.getD 11 0 = 255 then
    some (ip.drop 12)
  else none

/-- The function `appendDecimal` of `net/netip`. -/
def appendDecimal (b : List Char) (x : Nat) : List Char :=
  let b := if x ≥ 100 then b ++ [digits.getD (x / 100) '0'] else b
  let b := if x ≥ 10 then b ++ [digits.getD (x / 10 % 10) '0'] else b
  b ++ [digits.getD (x % 10) '0']

/-- The function `appendHex` of `net/netip`. -/
def appendHex (b : List Char) (x : Nat) : List Char :=
  let b := if x ≥ 0x1000 then b ++ [digits.getD (x / 0x1000) '0'] else b
  let b := if x ≥ 0x100 then b ++ [digits.getD (x / 0x100 % 16) '0'] else b
  let b := if x ≥ 0x10 then b ++ [digits.getD (x / 0x10 % 16) '0'] else b
  b ++ [digits.getD (x % 16) '0']

/-- The method `Addr.appendTo4`: dotted decimal. -/
def appendTo4 (ret : List Char) (p4 : IP) : List Char :=
  let ret := appendDecimal ret (p4.getD 0 0)
  let ret := ret ++ ['.']
  let ret := appendDecimal ret (p4.getD 1 0)
  let ret := ret ++ ['.']
  let ret := appendDecimal ret (p4.getD 2 0)
  let ret := ret ++ ['.']
  appendDecimal ret (p4.getD 3 0)

/-- The method `Addr.v6u16`: the `i`-th 16-bit group of a 16-byte address. -/
def v6u16 (ip : IP) (i : Nat) : Nat :=
  ip.getD (2 * i) 0 * 256 + ip.getD (2 * i + 1) 0

/-- The inner loop of the zero-run search of `Addr.appendTo6`:
`for j < 8 && ip.v6u16(j) == 0 { j++ }`, the first argument bounding the steps. -/
def zeroRunEnd (ip : IP) : Nat → Nat → Nat
  | 0, j => j
  | fuel + 1, j => if j < 8 ∧ v6u16 ip j = 0 then zeroRunEnd ip fuel (j + 1) else j

/-- The zero-run search of `Addr.appendTo6`: the loop over `i` with the pair
`(zeroStart, zeroEnd)`, the first argument counting the indices left (`8 - i`). -/
def findZeros (ip : IP) : Nat → Nat → Nat × Nat → Nat × Nat
  | 0, _, z => z
  | fuel + 1, i, z =>
    let j := zeroRunEnd ip 8 i
    let l := j - i
    let z1 := if l ≥ 2 ∧ l > z.2 - z.1 then (i, j) else z
    findZeros ip fuel (i + 1) z1

/-- The output loop of `Addr.appendTo6`, the first argument bounding the steps
(every step increases `i`, and the loop runs while `i < 8`). -/
def appendTo6Loop (ip : IP) (zeroStart zeroEnd : Nat) : Nat → Nat → List Char → List Char
  | 0, _, ret => ret
  | fuel + 1, i, ret =>
    if ¬ i < 8 then ret
    else if i = zeroStart then
      let ret := ret ++ [':', ':']
      let i := zeroEnd
      if i ≥ 8 then ret
      else appendTo6Loop ip zeroStart zeroEnd fuel (i + 1) (appendHex ret (v6u16 ip i))
    else
      let ret := if i > 0 then ret ++ [':'] else ret
      appendTo6Loop ip zeroStart zeroEnd fuel (i + 1) (appendHex ret (v6u16 ip i))

/-- The method `Addr.appendTo6` for an address without zone: the groups in
hexadecimal, the first longest run of two or more zero groups written `::`. -/
def appendTo6 (ret : List Char) (ip : IP) : List Char :=
  let z := findZeros ip 8 0 (255, 255)
  appendTo6Loop ip z.1 z.2 8 0 ret

/-- The function `hexString` of package `net`. -/
def hexString (b : IP) : List Char :=
  b.flatMap (fun tn => [digits.getD (tn / 16) '0', digits.getD (tn % 16) '0'])

/-- The method `IP.String`. -/
def IP.String (ip : IP) : Str :=
  if ip.length = 0 then "<nil>".toList
  else if ip.length ≠ 4 ∧ ip.length ≠ 16 then '?' :: hexString ip
  else
    match To4 ip with
    | some p4 => appendTo4 [] p4
    | none => appendTo6 [] ip

/-- The function `bytealg.IndexByteString`: the index of the first `c`, `none` for `-1`. -/
def IndexByteString : Str → Char → Option Nat
  | [], _ => none
  | x :: xs, c => if x = c then some 0 else (IndexByteString xs c).map (fun k => k + 1)

/-- The function `bytealg.LastIndexByteString`: the index of the last `c`, `none` for `-1`. -/
def LastIndexByteString : Str → Char → Option Nat
  | [], _ => none
  | x :: xs, c =>
    match LastIndexByteString xs c with
    | some k => some (k + 1)
    | none => if x = c then some 0 else none

/-- The function `net.SplitHostPort`: host and port, `none` for an error. -/
def SplitHostPort (hostport : Str) : Option (Str × Str) :=
  match LastIndexByteString hostport ':' with
  | none => none
  | some i =>
    if hostport.head? = some '[' then
      match IndexByteString hostport ']' with
      | none => none
      | some e =>
        if e + 1 = hostport.length then none
        else if e + 1 = i then
          let host := (hostport.take e).drop 1
          if IndexByteString (hostport.drop 1) '[' ≠ none then none
          else if IndexByteString (hostport.drop (e + 1)) ']' ≠ none then none
          else some (host, hostport.drop (i + 1))
        else none
    else
      let host := hostport.take i
      if IndexByteString host ':' ≠ none then none
      else if IndexByteString hostport '[' ≠ none then none
      else if IndexByteString hostport ']' ≠ none then none
      else some (host, hostport.drop (i + 1))

end net

/-! ## Package `ws`: `server_options.go` -/

/-- The type `RealIPMode`, a string type. -/
abbrev RealIPMode := Str

/-- The constant `RealIPModeLeft`. -/
def RealIPModeLeft : RealIPMode := "left".toList

/-- The constant `RealIPModeRight`. -/
def RealIPModeRight : RealIPMode := "right".toList

/-- The function `parseRealIPMode`. -/
def parseRealIPMode (mode : Str) : RealIPMode :=
  let m : RealIPMode := strings.ToLower (strings.TrimSpace mode)
  if m = RealIPModeLeft then RealIPModeLeft
  else if m = RealIPModeRight then RealIPModeRight
  else RealIPModeRight

/-- The type `serverOptions`.  A duration is its number of nanoseconds, the
cross-origin check is a predicate on the origin of the request. -/
structure serverOptions where
  addr : Str
  maxConnNum : Int
  certFile : Str
  keyFile : Str
  path : Str
  checkOrigin : Str → Bool
  handshakeTimeout : Int
  heartbeatInterval : Int
  heartbeatMechanism : Str
  authorizeTimeout : Int
  realIPEnabled : Bool
  realIPMode : RealIPMode

/-- The type `ServerOption`, a function that updates the options. -/
abbrev ServerOption := serverOptions → serverOptions

/-- The function `WithServerRealIPEnabled`. -/
def WithServerRealIPEnabled (enabled : Bool) : ServerOption :=
  fun o => { o with realIPEnabled := enabled }

/-- The function `WithServerRealIPMode`. -/
def WithServerRealIPMode (mode : RealIPMode) : ServerOption :=
  fun o => { o with realIPMode := parseRealIPMode mode }

/-! ## Package `ws`: `real_ip.go` -/

/-- The double quote, the cutset of the first trim of `parseIPToken`. -/
def dquote : Char := Char.ofNat 34

/-- The function `parseIPToken`. -/
def parseIPToken (token : Str) : Str :=
  let token := strings.TrimSpace (strings.Trim token [dquote])
  if token = [] then []
  else
    match net.ParseIP token with
    | some ip => net.IP.String ip
    | none =>
      let viaHost : Option net.IP :=
        match net.SplitHostPort token with
        | some (host, _) => net.ParseIP (strings.TrimSpace (strings.Trim host ['[', ']']))
        | none => none
      match viaHost with
      | some ip => net.IP.String ip
      | none =>
        match net.ParseIP (strings.Trim token ['[', ']']) with
        | some ip => net.IP.String ip
        | none => []

/-- The loop `for i := 0; i < len(tokens); i++` of `parseXForwardedFor`.  The
first argument counts the indices left (`len(tokens) - i`); `none` is the
run-time panic of an index out of range. -/
def scanLeft (tokens : List Str) : Nat → Nat → Option Str
  | 0, _ => some []
  | left + 1, i =>
    match tokens[i]? with
    | none => none
    | some t =>
      let ip := parseIPToken t
      if ip ≠ [] then some ip else scanLeft tokens left (i + 1)

/-- The loop `for i := len(tokens) - 1; i >= 0; i--` of `parseXForwardedFor`.
The argument is `i + 1`; `none` is the run-time panic of an index out of range. -/
def scanRight (tokens : List Str) : Nat → Option Str
  | 0 => some []
  | i + 1 =>
    match tokens[i]? with
    | none => none
    | some t =>
      let ip := parseIPToken t
      if ip ≠ [] then some ip else scanRight tokens i

/-- The function `parseXForwardedFor`; `none` is a run-time panic. -/
def parseXForwardedFor (value : Str) (mode : RealIPMode) : Option Str :=
  let tokens := strings.Split value ','
  if tokens.length = 0 then some []
  else if parseRealIPMode mode = RealIPModeLeft then scanLeft tokens tokens.length 0
  else scanRight tokens tokens.length

/-- The part of `*http.Request` that `resolveRealIP` reads: `Header.Get`
(the first value stored under a key, the empty string when there is none) and
the field `RemoteAddr`. -/
structure Request where
  Get : Str → Str
  RemoteAddr : Str

/-- The function `resolveRealIP`; the request `none` is `nil`, the result
`none` is a run-time panic. -/
def resolveRealIP (r : Option Request) (mode : RealIPMode) : Option Str :=
  match r with
  | none => some []
  | some r =>
    match parseXForwardedFor (r.Get "X-Forwarded-For".toList) mode with
    | none => none
    | some ip =>
      if ip ≠ [] then some ip
      else
        let ip := parseIPToken (r.Get "X-Real-IP".toList)
        if ip ≠ [] then some ip
        else some (parseIPToken r.RemoteAddr)

/-! ## Definitions of the specification -/

/-- The first non-empty string of a list of candidates, the empty string when
there is none: the fallback order of the specification. -/
def firstNonEmpty : List Str → Str
  | [] => []
  | s :: ss => if s ≠ [] then s else firstNonEmpty ss

/-- A request as the tests of `real_ip_test.go` build it: the two headers
(absent when given empty, so that `Header.Get` returns the empty string) and the
peer address. -/
def testRequest (xff xRealIP remoteAddr : Str) : Request where
  Get := fun key =>
    if key = "X-Forwarded-For".toList then xff
    else if key = "X-Real-IP".toList then xRealIP
    else []
  RemoteAddr := remoteAddr

/-- A mode string is a spelling of `left` when it is `left` up to surrounding
white space and the case of its letters. -/
def IsLeftSpelling (m : Str) : Prop :=
  strings.ToLower (strings.TrimSpace m) = "left".toList

instance (m : Str) : Decidable (IsLeftSpelling m) := by
  unfold IsLeftSpelling; infer_instance

/-- The characters an IP literal is made of: hexadecimal digits, `:` and `.`. -/
def IsIPChar (c : Char) : Prop :=
  net.hexVal c ≠ none ∨ c = ':' ∨ c = '.'

instance (c : Char) : Decidable (IsIPChar c) := by
  unfold IsIPChar; infer_instance

/-- A valid IPv4 literal: a string that `net.ParseIP` accepts and that has no colon. -/
def IsIPv4Literal (a : Str) : Prop :=
  net.ParseIP a ≠ none ∧ ':' ∉ a

/-- A valid IPv6 literal: a string that `net.ParseIP` accepts and that has a colon. -/
def IsIPv6Literal (a : Str) : Prop :=
  net.ParseIP a ≠ none ∧ ':' ∈ a

instance (a : Str) : Decidable (IsIPv4Literal a) := by
  unfold IsIPv4Literal; infer_instance

instance (a : Str) : Decidable (IsIPv6Literal a) := by
  unfold IsIPv6Literal; infer_instance

/-- The canonical form of an IP literal: the string form of the parsed address
(the empty string for a string that is no IP literal). -/
def canonical (a : Str) : Str :=
  match net.ParseIP a with
  | some ip => net.IP.String ip
  | none => []

/-- A port as it is written in an address: a string of decimal digits. -/
def IsPort (p : Str) : Prop :=
  ∀ c ∈ p, 48 ≤ c.toNat ∧ c.toNat ≤ 57

instance (p : Str) : Decidable (IsPort p) := by
  unfold IsPort; infer_instance

/-- The 16-bit groups of a list written in hexadecimal and separated by colons. -/
def hexGroups : List Nat → List Char
  | [] => []
  | [g] => net.appendHex [] g
  | g :: g1 :: gs => net.appendHex [] g ++ ':' :: hexGroups (g1 :: gs)

/-- The bytes of a list of 16-bit groups, the high byte of a group first. -/
def groupBytes : List Nat → List Nat
  | [] => []
  | g :: gs => g / 256 :: g % 256 :: groupBytes gs

/-- The eight 16-bit groups of a 16-byte address. -/
def v6groups (ip : net.IP) : List Nat :=
  [net.v6u16 ip 0, net.v6u16 ip 1, net.v6u16 ip 2, net.v6u16 ip 3,
   net.v6u16 ip 4, net.v6u16 ip 5, net.v6u16 ip 6, net.v6u16 ip 7]

/-- A resolved address: a string that `net.ParseIP` accepts and that is the
string form of the address it denotes (its own canonical form), that is made of
hexadecimal digits, `:` and `.` only, and that `net.SplitHostPort` does not split
(it carries no port). -/
def IsCanonicalIP (s : Str) : Prop :=
  (∃ ip, net.ParseIP s = some ip ∧ net.IP.String ip = s) ∧ (∀ c ∈ s, IsIPChar c) ∧
    net.SplitHostPort s = none

/-- A token that wraps `a` in `m` opening and `n` closing square brackets. -/
def wrapBrackets (m n : Nat) (a : Str) : Str :=
  List.replicate m '[' ++ a ++ List.replicate n ']'

/-- A token of a chain normalizes when `parseIPToken` gives a non-empty string. -/
def Normalizes (t : Str) : Prop :=
  parseIPToken t ≠ []

instance (t : Str) : Decidable (Normalizes t) := by
  unfold Normalizes; infer_instance

/-- At most one of the comma-separated tokens of a chain normalizes. -/
def AtMostOneNormalizes (value : Str) : Prop :=
  ∀ i j, ∀ hi : i < (strings.Split value ',').length,
    ∀ hj : j < (strings.Split value ',').length,
    Normalizes (strings.Split value ',')[i] → Normalizes (strings.Split value ',')[j] → i = j

/-! # Theorems -/

set_option maxRecDepth 100000

/-! ## The scans of the forwarding chain -/

theorem Split_ne_nil (s : Str) (sep : Char) : strings.Split s sep ≠ [] := by
  induction s with
  | nil => simp [strings.Split]
  | cons c cs ih =>
    unfold strings.Split
    split
    · simp
    · split <;> simp

theorem scanRight_spec (tokens : List Str) (n : Nat) (hn : n ≤ tokens.length) :
    (∃ i, ∃ h : i < tokens.length, i < n ∧ parseIPToken tokens[i] ≠ [] ∧
        (∀ j, ∀ hj : j < tokens.length, i < j → j < n → parseIPToken tokens[j] = []) ∧
        scanRight tokens n = some (parseIPToken tokens[i])) ∨
      ((∀ j, ∀ hj : j < tokens.length, j < n → parseIPToken tokens[j] = []) ∧
        scanRight tokens n = some []) := by
  induction n with
  | zero => right; exact ⟨fun j hj h => absurd h (Nat.not_lt_zero j), rfl⟩
  | succ n ih =>
    have hlt : n < tokens.length := hn
    by_cases hp : parseIPToken tokens[n] = []
    · have hstep : scanRight tokens (n + 1) = scanRight tokens n := by
        simp [scanRight, List.getElem?_eq_getElem hlt, hp]
      rcases ih (Nat.le_of_lt hlt) with ⟨i, h, hin, hne, hall, hres⟩ | ⟨hall, hres⟩
      · left
        refine ⟨i, h, Nat.lt_succ_of_lt hin, hne, ?_, by rw [hstep, hres]⟩
        intro j hj hij hjn
        rcases Nat.lt_succ_iff_lt_or_eq.mp hjn with hlt1 | heq
        · exact hall j hj hij hlt1
        · subst heq; exact hp
      · right
        refine ⟨?_, by rw [hstep, hres]⟩
        intro j hj hjn
        rcases Nat.lt_succ_iff_lt_or_eq.mp hjn with hlt1 | heq
        · exact hall j hj hlt1
        · subst heq; exact hp
    · left
      refine ⟨n, hlt, Nat.lt_succ_self n, hp, ?_, ?_⟩
      · intro j hj hij hjn
        omega
      · simp [scanRight, List.getElem?_eq_getElem hlt, hp]

theorem scanLeft_spec (tokens : List Str) (left i : Nat) (hi : i + left = tokens.length) :
    (∃ k, ∃ h : k < tokens.length, i ≤ k ∧ parseIPToken tokens[k] ≠ [] ∧
        (∀ j, ∀ hj : j < tokens.length, i ≤ j → j < k → parseIPToken tokens[j] = []) ∧
        scanLeft tokens left i = some (parseIPToken tokens[k])) ∨
      ((∀ j, ∀ hj : j < tokens.length, i ≤ j → parseIPToken tokens[j] = []) ∧
        scanLeft tokens left i = some []) := by
  induction left generalizing i with
  | zero =>
    right
    refine ⟨?_, rfl⟩
    intro j hj hij
    omega
  | succ left ih =>
    have hlt : i < tokens.length := by omega
    by_cases hp : parseIPToken tokens[i] = []
    · have hstep : scanLeft tokens (left + 1) i = scanLeft tokens left (i + 1) := by
        simp [scanLeft, List.getElem?_eq_getElem hlt, hp]
      rcases ih (i + 1) (by omega) with ⟨k, h, hik, hne, hall, hres⟩ | ⟨hall, hres⟩
      · left
        refine ⟨k, h, by omega, hne, ?_, by rw [hstep, hres]⟩
        intro j hj hij hjk
        rcases Nat.eq_or_lt_of_le hij with heq | hlt1
        · subst heq; exact hp
        · exact hall j hj hlt1 hjk
      · right
        refine ⟨?_, by rw [hstep, hres]⟩
        intro j hj hij
        rcases Nat.eq_or_lt_of_le hij with heq | hlt1
        · subst heq; exact hp
        · exact hall j hj hlt1
    · left
      refine ⟨i, hlt, Nat.le_refl i, hp, ?_, ?_⟩
      · intro j hj hij hjk
        omega
      · simp [scanLeft, List.getElem?_eq_getElem hlt, hp]

theorem parseRealIPMode_right : parseRealIPMode RealIPModeRight = RealIPModeRight := by decide

theorem parseRealIPMode_left : parseRealIPMode RealIPModeLeft = RealIPModeLeft := by decide

theorem left_ne_right : RealIPModeRight ≠ RealIPModeLeft := by decide

theorem parseXForwardedFor_right (value : Str) (mode : RealIPMode)
    (h : parseRealIPMode mode ≠ RealIPModeLeft) :
    parseXForwardedFor value mode =
      scanRight (strings.Split value ',') (strings.Split value ',').length := by
  have hl : (strings.Split value ',').length ≠ 0 := by
    simpa [List.length_eq_zero] using Split_ne_nil value ','
  simp [parseXForwardedFor, hl, h]

theorem parseXForwardedFor_left (value : Str) (mode : RealIPMode)
    (h : parseRealIPMode mode = RealIPModeLeft) :
    parseXForwardedFor value mode =
      scanLeft (strings.Split value ',') (strings.Split value ',').length 0 := by
  have hl : (strings.Split value ',').length ≠ 0 := by
    simpa [List.length_eq_zero] using Split_ne_nil value ','
  simp [parseXForwardedFor, hl, h]

theorem parseXForwardedFor_total (value : Str) (mode : RealIPMode) :
    ∃ ip, parseXForwardedFor value mode = some ip := by
  by_cases h : parseRealIPMode mode = RealIPModeLeft
  · rw [parseXForwardedFor_left value mode h]
    rcases scanLeft_spec (strings.Split value ',') _ 0 (Nat.zero_add _) with
      ⟨k, _, _, _, _, hres⟩ | ⟨_, hres⟩
    · exact ⟨_, hres⟩
    · exact ⟨_, hres⟩
  · rw [parseXForwardedFor_right value mode h]
    rcases scanRight_spec (strings.Split value ',') _ (Nat.le_refl _) with
      ⟨k, _, _, _, _, hres⟩ | ⟨_, hres⟩
    · exact ⟨_, hres⟩
    · exact ⟨_, hres⟩

theorem firstNonEmpty_three (a b c : Str) :
    firstNonEmpty [a, b, c] = if a ≠ [] then a else if b ≠ [] then b else c := by
  by_cases ha : a = [] <;> by_cases hb : b = [] <;> by_cases hc : c = [] <;>
    simp [firstNonEmpty, ha, hb, hc]

theorem parseXForwardedFor_none_normalizes (value : Str) (mode : RealIPMode)
    (h : ∀ t ∈ strings.Split value ',', parseIPToken t = []) :
    parseXForwardedFor value mode = some [] := by
  by_cases hm : parseRealIPMode mode = RealIPModeLeft
  · rw [parseXForwardedFor_left value mode hm]
    rcases scanLeft_spec (strings.Split value ',') _ 0 (Nat.zero_add _) with
      ⟨k, hk, _, hne, _, _⟩ | ⟨_, hres⟩
    · exact absurd (h _ (List.getElem_mem hk)) hne
    · exact hres
  · rw [parseXForwardedFor_right value mode hm]
    rcases scanRight_spec (strings.Split value ',') _ (Nat.le_refl _) with
      ⟨k, hk, _, hne, _, _⟩ | ⟨_, hres⟩
    · exact absurd (h _ (List.getElem_mem hk)) hne
    · exact hres

/-- C1: for a request that is not nil and every mode, `resolveRealIP` returns
the first non-empty value among `parseXForwardedFor` of the `X-Forwarded-For`
value, `parseIPToken` of the `X-Real-IP` value and `parseIPToken` of
`RemoteAddr`, in this order; the result is empty exactly when all three are;
and when no token of the chain normalizes and `X-Real-IP` normalizes, the result
is the canonical form of `X-Real-IP`, whatever the mode and the peer address. -/
theorem resolveRealIP_first_non_empty (r : Request) (mode : RealIPMode) :
    ∃ chain, parseXForwardedFor (r.Get "X-Forwarded-For".toList) mode = some chain ∧
      resolveRealIP (some r) mode =
        some (firstNonEmpty
          [chain, parseIPToken (r.Get "X-Real-IP".toList), parseIPToken r.RemoteAddr]) ∧
      (resolveRealIP (some r) mode = some [] ↔
        chain = [] ∧ parseIPToken (r.Get "X-Real-IP".toList) = [] ∧
          parseIPToken r.RemoteAddr = []) ∧
      ((∀ t ∈ strings.Split (r.Get "X-Forwarded-For".toList) ',', parseIPToken t = []) →
        parseIPToken (r.Get "X-Real-IP".toList) ≠ [] →
        resolveRealIP (some r) mode = some (parseIPToken (r.Get "X-Real-IP".toList))) := by
  obtain ⟨chain, hchain⟩ := parseXForwardedFor_total (r.Get "X-Forwarded-For".toList) mode
  have hnone := parseXForwardedFor_none_normalizes (r.Get "X-Forwarded-For".toList) mode
  simp only [resolveRealIP, hchain, firstNonEmpty_three]
  rw [hchain] at hnone
  generalize parseIPToken (r.Get "X-Real-IP".toList) = real at *
  generalize parseIPToken r.RemoteAddr = peer at *
  refine ⟨chain, rfl, ?_, ?_, ?_⟩
  · by_cases h1 : chain = [] <;> by_cases h2 : real = [] <;> simp [h1, h2]
  · by_cases h1 : chain = [] <;> by_cases h2 : real = [] <;> simp [h1, h2]
  · intro hall hreal
    have hc : chain = [] := Option.some.inj (hnone hall)
    simp [hc, hreal]

/-- Witness of C1: the test `fallback x-real-ip`: chain `unknown, -,`, `X-Real-IP`
`3.3.3.3`, Right mode. -/
theorem resolveRealIP_first_non_empty_witness :
    resolveRealIP
      (some (testRequest "unknown, -,".toList "3.3.3.3".toList "10.0.0.1:12345".toList))
      RealIPModeRight = some "3.3.3.3".toList := by
  obtain ⟨_, _, _, _, h⟩ := resolveRealIP_first_non_empty
    (testRequest "unknown, -,".toList "3.3.3.3".toList "10.0.0.1:12345".toList) RealIPModeRight
  exact (h (by decide) (by decide)).trans (by decide)

/-- C2: in Right mode `parseXForwardedFor` returns `parseIPToken` of the token
of greatest index that normalizes, and the empty string when no token
normalizes. -/
theorem parseXForwardedFor_right_rightmost (value : Str) :
    (∃ i, ∃ h : i < (strings.Split value ',').length,
        parseIPToken (strings.Split value ',')[i] ≠ [] ∧
        (∀ j, ∀ hj : j < (strings.Split value ',').length, i < j →
          parseIPToken (strings.Split value ',')[j] = []) ∧
        parseXForwardedFor value RealIPModeRight =
          some (parseIPToken (strings.Split value ',')[i])) ∨
      ((∀ t ∈ strings.Split value ',', parseIPToken t = []) ∧
        parseXForwardedFor value RealIPModeRight = some []) := by
  have hm : parseRealIPMode RealIPModeRight ≠ RealIPModeLeft := by decide
  rw [parseXForwardedFor_right value _ hm]
  rcases scanRight_spec (strings.Split value ',') _ (Nat.le_refl _) with
    ⟨i, h, _, hne, hall, hres⟩ | ⟨hall, hres⟩
  · left
    exact ⟨i, h, hne, fun j hj hij => hall j hj hij hj, hres⟩
  · right
    refine ⟨?_, hres⟩
    intro t ht
    obtain ⟨j, hj, rfl⟩ := List.getElem_of_mem ht
    exact hall j hj hj

/-- C3: in Left mode `parseXForwardedFor` returns `parseIPToken` of the token of
least index that normalizes, and the empty string when no token normalizes. -/
theorem parseXForwardedFor_left_leftmost (value : Str) :
    (∃ i, ∃ h : i < (strings.Split value ',').length,
        parseIPToken (strings.Split value ',')[i] ≠ [] ∧
        (∀ j, ∀ hj : j < (strings.Split value ',').length, j < i →
          parseIPToken (strings.Split value ',')[j] = []) ∧
        parseXForwardedFor value RealIPModeLeft =
          some (parseIPToken (strings.Split value ',')[i])) ∨
      ((∀ t ∈ strings.Split value ',', parseIPToken t = []) ∧
        parseXForwardedFor value RealIPModeLeft = some []) := by
  have hm : parseRealIPMode RealIPModeLeft = RealIPModeLeft := by decide
  rw [parseXForwardedFor_left value _ hm]
  rcases scanLeft_spec (strings.Split value ',') _ 0 (Nat.zero_add _) with
    ⟨i, h, _, hne, hall, hres⟩ | ⟨hall, hres⟩
  · left
    exact ⟨i, h, hne, fun j hj hji => hall j hj (Nat.zero_le j) hji, hres⟩
  · right
    refine ⟨?_, hres⟩
    intro t ht
    obtain ⟨j, hj, rfl⟩ := List.getElem_of_mem ht
    exact hall j hj (Nat.zero_le j)

theorem parseRealIPMode_of_not_left (m : Str) (h : ¬ IsLeftSpelling m) :
    parseRealIPMode m = RealIPModeRight := by
  unfold IsLeftSpelling at h
  unfold parseRealIPMode
  simp only [RealIPModeLeft]
  rw [if_neg h]
  simp

/-- C6: a mode string that is not a spelling of `left` behaves as Right: for
every request (nil included) `resolveRealIP` gives the same result as in Right
mode, and the chain is scanned from the right. -/
theorem resolveRealIP_unrecognized_mode (m : Str) (r : Option Request)
    (h : ¬ IsLeftSpelling m) :
    resolveRealIP r m = resolveRealIP r RealIPModeRight ∧
      ∀ value, parseXForwardedFor value m =
        scanRight (strings.Split value ',') (strings.Split value ',').length := by
  have hm : parseRealIPMode m ≠ RealIPModeLeft := by
    rw [parseRealIPMode_of_not_left m h]; decide
  have hr : parseRealIPMode RealIPModeRight ≠ RealIPModeLeft := by decide
  refine ⟨?_, fun value => parseXForwardedFor_right value m hm⟩
  cases r with
  | none => rfl
  | some r =>
    simp only [resolveRealIP]
    rw [parseXForwardedFor_right _ m hm, parseXForwardedFor_right _ _ hr]

/-- Witness of C6: the mode `middle` on the chain `1.1.1.1, 2.2.2.2`. -/
theorem resolveRealIP_unrecognized_mode_witness :
    resolveRealIP (some (testRequest "1.1.1.1, 2.2.2.2".toList [] "10.0.0.1:12345".toList))
      "middle".toList = some "2.2.2.2".toList := by
  have h := (resolveRealIP_unrecognized_mode "middle".toList
    (some (testRequest "1.1.1.1, 2.2.2.2".toList [] "10.0.0.1:12345".toList))
    (by decide)).1
  exact h.trans (by decide)

theorem isSpace_lower_upper : ∀ n < 91, 65 ≤ n → strings.isSpace (Char.ofNat (n + 32)) = false := by
  decide

theorem isSpace_of_upper (c : Char) (h1 : 65 ≤ c.toNat) (h2 : c.toNat ≤ 90) :
    strings.isSpace c = false := by
  simp only [strings.isSpace, Bool.or_eq_false_iff, Bool.and_eq_false_iff, beq_eq_false_iff_ne,
    decide_eq_false_iff_not]
  omega

theorem isSpace_toLowerRune (c : Char) :
    strings.isSpace (strings.toLowerRune c) = strings.isSpace c := by
  unfold strings.toLowerRune
  split
  · rename_i h
    rw [isSpace_lower_upper c.toNat (by omega) h.1, isSpace_of_upper c h.1 h.2]
  · split
    · rename_i h
      have : strings.isSpace c = false := by
        simp only [strings.isSpace, Bool.or_eq_false_iff, Bool.and_eq_false_iff,
          beq_eq_false_iff_ne, decide_eq_false_iff_not]
        omega
      rw [this]; decide
    · split
      · rename_i h
        have : strings.isSpace c = false := by
          simp only [strings.isSpace, Bool.or_eq_false_iff, Bool.and_eq_false_iff,
            beq_eq_false_iff_ne, decide_eq_false_iff_not]
          omega
        rw [this]; decide
      · rfl

theorem TrimSpace_ToLower (m : Str) :
    strings.TrimSpace (strings.ToLower m) = strings.ToLower (strings.TrimSpace m) := by
  have hf : (strings.isSpace ∘ strings.toLowerRune) = strings.isSpace :=
    funext isSpace_toLowerRune
  simp only [strings.TrimSpace, strings.TrimFunc, strings.TrimLeftFunc, strings.TrimRightFunc,
    strings.ToLower, List.dropWhile_map, hf, ← List.map_reverse]

/-- C7: `parseRealIPMode` is total, returns Left exactly when its input, white
space trimmed and lower-cased, is `left`, and Right for every other input, the
empty string included; two inputs that differ only in the case of their letters
(that have the same lower-casing) get the same mode. -/
theorem parseRealIPMode_spec (m : Str) :
    (parseRealIPMode m = RealIPModeLeft ↔
      strings.ToLower (strings.TrimSpace m) = "left".toList) ∧
    (strings.ToLower (strings.TrimSpace m) ≠ "left".toList →
      parseRealIPMode m = RealIPModeRight) ∧
    parseRealIPMode [] = RealIPModeRight ∧
    (∀ m1, strings.ToLower m1 = strings.ToLower m → parseRealIPMode m1 = parseRealIPMode m) := by
  refine ⟨?_, fun h => parseRealIPMode_of_not_left m h, by decide, ?_⟩
  · constructor
    · intro h
      by_contra hne
      rw [parseRealIPMode_of_not_left m hne] at h
      exact left_ne_right h
    · intro h
      unfold parseRealIPMode
      simp only [RealIPModeLeft]
      rw [if_pos h]
  · intro m1 h
    unfold parseRealIPMode
    simp only [← TrimSpace_ToLower, h]

/-- Witness of C7: ` LEFT ` and `left` have the mode Left, `RIGHT` and `middle`
the mode Right. -/
theorem parseRealIPMode_spec_witness :
    parseRealIPMode " LEFT ".toList = RealIPModeLeft ∧
      parseRealIPMode "RIGHT".toList = RealIPModeRight ∧
      parseRealIPMode "lEfT".toList = parseRealIPMode "left".toList := by
  refine ⟨(parseRealIPMode_spec " LEFT ".toList).1.mpr (by decide),
    (parseRealIPMode_spec "RIGHT".toList).2.1 (by decide),
    (parseRealIPMode_spec "left".toList).2.2.2 "lEfT".toList (by decide)⟩

/-! ## The characters of an IP literal -/

theorem parseIPv4FieldsLoop_chars (s : List Char) :
    ∀ (prev : Option Char) (st st1 : net.V4State),
      net.parseIPv4FieldsLoop s prev st = some st1 →
      ∀ c ∈ s, (48 ≤ c.toNat ∧ c.toNat ≤ 57) ∨ c = '.' := by
  induction s with
  | nil => intro _ _ _ _ c hc; simp at hc
  | cons x xs ih =>
    intro prev st st1 h c hc
    unfold net.parseIPv4FieldsLoop at h
    by_cases hd : 48 ≤ x.toNat ∧ x.toNat ≤ 57
    · rw [if_pos hd] at h
      rcases List.mem_cons.mp hc with rfl | hmem
      · exact Or.inl hd
      · split at h
        · exact absurd h (by simp)
        · dsimp only at h
          split at h
          · exact absurd h (by simp)
          · exact ih _ _ _ h c hmem
    · rw [if_neg hd] at h
      by_cases hdot : x = '.'
      · rw [if_pos hdot] at h
        rcases List.mem_cons.mp hc with rfl | hmem
        · exact Or.inr hdot
        · split at h
          · exact absurd h (by simp)
          · split at h
            · exact absurd h (by simp)
            · exact ih _ _ _ h c hmem
      · rw [if_neg hdot] at h
        exact absurd h (by simp)

theorem parseIPv4Fields_chars (s : List Char) (f : List Nat)
    (h : net.parseIPv4Fields s = some f) :
    ∀ c ∈ s, (48 ≤ c.toNat ∧ c.toNat ≤ 57) ∨ c = '.' := by
  unfold net.parseIPv4Fields at h
  split at h
  · exact absurd h (by simp)
  · rename_i st hst
    exact parseIPv4FieldsLoop_chars s _ _ _ hst

theorem hexVal_of_digit (c : Char) (h : 48 ≤ c.toNat ∧ c.toNat ≤ 57) : net.hexVal c ≠ none := by
  unfold net.hexVal
  rw [if_pos h]
  simp

theorem hexRun_split (s : List Char) :
    ∀ (acc off acc1 off1 : Nat) (rest : List Char),
      net.hexRun s acc off = some (acc1, off1, rest) →
      ∃ pre, s = pre ++ rest ∧ (∀ c ∈ pre, net.hexVal c ≠ none) ∧ off1 = off + pre.length := by
  induction s with
  | nil =>
    intro acc off acc1 off1 rest h
    simp only [net.hexRun, Option.some.injEq, Prod.mk.injEq] at h
    exact ⟨[], by simp [h.2.2.symm], by simp, by simp [h.2.1.symm]⟩
  | cons x xs ih =>
    intro acc off acc1 off1 rest h
    unfold net.hexRun at h
    split at h
    · simp only [Option.some.injEq, Prod.mk.injEq] at h
      exact ⟨[], by simp [h.2.2.symm], by simp, by simp [h.2.1.symm]⟩
    · rename_i d hd
      simp only at h
      split at h
      · exact absurd h (by simp)
      · split at h
        · exact absurd h (by simp)
        · obtain ⟨pre, hs, hall, hoff⟩ := ih _ _ _ _ _ h
          refine ⟨x :: pre, by simp [hs], ?_, by simp [hoff]; omega⟩
          intro c hc
          rcases List.mem_cons.mp hc with rfl | hmem
          · simp [hd]
          · exact hall c hmem

theorem isIPChar_of_digit_or_dot (c : Char) (h : (48 ≤ c.toNat ∧ c.toNat ≤ 57) ∨ c = '.') :
    IsIPChar c := by
  rcases h with h | h
  · exact Or.inl (hexVal_of_digit c h)
  · exact Or.inr (Or.inr h)

theorem parseIPv6Loop_chars (fuel : Nat) :
    ∀ (s : List Char) (i : Nat) (ell : Option Nat) (ip : List Nat) (st : net.V6State),
      net.parseIPv6Loop fuel s i ell ip = some st →
      ∃ pre, s = pre ++ st.rest ∧ ∀ c ∈ pre, IsIPChar c := by
  induction fuel with
  | zero =>
    intro s i ell ip st h
    simp only [net.parseIPv6Loop, Option.some.injEq] at h
    subst h
    exact ⟨[], by simp, by simp⟩
  | succ fuel ih =>
    intro s i ell ip st h
    unfold net.parseIPv6Loop at h
    cases hrun : net.hexRun s 0 0 with
    | none => simp [hrun] at h
    | some r =>
      obtain ⟨acc, off, rest⟩ := r
      obtain ⟨pre0, hs, hpre0, _⟩ := hexRun_split s 0 0 acc off rest hrun
      have hpre0c : ∀ c ∈ pre0, IsIPChar c := fun c hc => Or.inl (hpre0 c hc)
      simp only [hrun] at h
      by_cases hoff : off = 0
      · simp [hoff] at h
      rw [if_neg hoff] at h
      by_cases hdot : rest.head? = some '.'
      · rw [if_pos hdot] at h
        split at h
        · exact absurd h (by simp)
        · split at h
          · exact absurd h (by simp)
          · split at h
            · exact absurd h (by simp)
            · rename_i f hf
              simp only [Option.some.injEq] at h
              subst h
              refine ⟨s, by simp, ?_⟩
              intro c hc
              exact isIPChar_of_digit_or_dot c (parseIPv4Fields_chars s f hf c hc)
      rw [if_neg hdot] at h
      rcases rest with _ | ⟨c, rest1⟩
      · simp only [Option.some.injEq] at h
        subst h
        exact ⟨pre0, by simpa using hs, hpre0c⟩
      by_cases hc : c = ':'
      swap
      · simp [hc] at h
      have hcc : IsIPChar c := Or.inr (Or.inl hc)
      simp only [hc, ne_eq, not_true_eq_false, if_false] at h
      rcases rest1 with _ | ⟨c1, rest2⟩
      · simp at h
      by_cases hc1 : c1 = ':'
      · have hcc1 : IsIPChar c1 := Or.inr (Or.inl hc1)
        simp only [hc1, if_true] at h
        split at h
        · exact absurd h (by simp)
        rcases rest2 with _ | ⟨c2, rest3⟩
        · simp only [Option.some.injEq] at h
          subst h
          refine ⟨s, by simp, ?_⟩
          intro x hx
          rw [hs] at hx
          rcases List.mem_append.mp hx with hx | hx
          · exact hpre0c x hx
          · simp only [List.mem_cons, List.mem_nil_iff, or_false] at hx
            rcases hx with rfl | rfl
            · exact hcc
            · exact hcc1
        · simp only at h
          obtain ⟨pre, hr, hpre⟩ := ih _ _ _ _ _ h
          refine ⟨pre0 ++ c :: c1 :: pre, by rw [hs, hr]; simp, ?_⟩
          intro x hx
          rcases List.mem_append.mp hx with hx | hx
          · exact hpre0c x hx
          · simp only [List.mem_cons] at hx
            rcases hx with rfl | rfl | hx
            · exact hcc
            · exact hcc1
            · exact hpre x hx
      · simp only [hc1, if_false] at h
        obtain ⟨pre, hr, hpre⟩ := ih _ _ _ _ _ h
        refine ⟨pre0 ++ c :: pre, by rw [hs, hr]; simp, ?_⟩
        intro x hx
        rcases List.mem_append.mp hx with hx | hx
        · exact hpre0c x hx
        · simp only [List.mem_cons] at hx
          rcases hx with rfl | hx
          · exact hcc
          · exact hpre x hx

theorem firstSep_mem (s : List Char) (c : Char) (h : net.firstSep s = some c) :
    c ∈ s ∧ (c = '.' ∨ c = ':' ∨ c = '%') := by
  induction s with
  | nil => simp [net.firstSep] at h
  | cons x xs ih =>
    unfold net.firstSep at h
    split at h
    · rename_i hx
      simp only [Option.some.injEq] at h
      subst h
      exact ⟨List.mem_cons_self _ _, hx⟩
    · exact ⟨List.mem_cons_of_mem _ (ih h).1, (ih h).2⟩

theorem firstSep_append (a b : List Char) (c : Char) (h : net.firstSep a = some c) :
    net.firstSep (a ++ b) = some c := by
  induction a with
  | nil => simp [net.firstSep] at h
  | cons x xs ih =>
    unfold net.firstSep at h
    rw [List.cons_append]
    unfold net.firstSep
    split at h
    · rename_i hx
      rw [if_pos hx]; exact h
    · rename_i hx
      rw [if_neg hx]; exact ih h

theorem firstSep_cons_of_ne (x : Char) (s : List Char)
    (hx : ¬ (x = '.' ∨ x = ':' ∨ x = '%')) : net.firstSep (x :: s) = net.firstSep s := by
  rw [net.firstSep, if_neg hx]

theorem parseIPv6Finish_rest (st : net.V6State) (ip : net.IP)
    (h : net.parseIPv6Finish st = some ip) : st.rest = [] := by
  unfold net.parseIPv6Finish at h
  split at h
  · exact absurd h (by simp)
  · rename_i hrest
    simpa using hrest

theorem parseIPv6Addr_cases (s : List Char) (ip : net.IP)
    (h : net.parseIPv6Addr s = some ip) :
    (s = [':', ':'] ∧ ip = List.replicate 16 0) ∨
      (∃ s1 st, s = ':' :: ':' :: s1 ∧ net.parseIPv6Loop 8 s1 0 (some 0) [] = some st ∧
        net.parseIPv6Finish st = some ip) ∨
      (∃ st, net.parseIPv6Loop 8 s 0 none [] = some st ∧ net.parseIPv6Finish st = some ip) := by
  unfold net.parseIPv6Addr at h
  dsimp only at h
  by_cases hlead : 2 ≤ s.length ∧ s.head? = some ':' ∧ (s.drop 1).head? = some ':'
  · have hin : s = ':' :: ':' :: s.drop 2 := by
      rcases s with _ | ⟨a, _ | ⟨b, t⟩⟩
      · simp at hlead
      · simp at hlead
      · simp only [List.head?_cons, Option.some.injEq, List.drop_succ_cons, List.drop_zero]
          at hlead
        simp [hlead.2.1, hlead.2.2]
    simp only [hlead, and_self, decide_True, if_true, true_and] at h
    split at h
    · rename_i h0
      left
      simp only [Option.some.injEq] at h
      exact ⟨by rw [hin, h0], h.symm⟩
    · split at h
      · exact absurd h (by simp)
      · rename_i st hst
        exact Or.inr (Or.inl ⟨s.drop 2, st, hin, hst, h⟩)
  · simp only [hlead, decide_False, if_false, false_and, Bool.false_eq_true] at h
    split at h
    · exact absurd h (by simp)
    · rename_i st hst
      exact Or.inr (Or.inr ⟨st, hst, h⟩)

theorem parseIPv6Addr_chars (s : List Char) (ip : net.IP)
    (h : net.parseIPv6Addr s = some ip) : ∀ c ∈ s, IsIPChar c := by
  unfold net.parseIPv6Addr at h
  dsimp only at h
  by_cases hlead : 2 ≤ s.length ∧ s.head? = some ':' ∧ (s.drop 1).head? = some ':'
  · have hin : s = ':' :: ':' :: s.drop 2 := by
      rcases s with _ | ⟨a, _ | ⟨b, t⟩⟩
      · simp at hlead
      · simp at hlead
      · simp only [List.head?_cons, Option.some.injEq, List.drop_succ_cons, List.drop_zero]
          at hlead
        simp [hlead.2.1, hlead.2.2]
    simp only [hlead, and_self, decide_True, if_true, true_and] at h
    have hloop : ∀ st, net.parseIPv6Loop 8 (s.drop 2) 0 (some 0) [] = some st → st.rest = [] →
        ∀ c ∈ s, IsIPChar c := by
      intro st hst hrest c hc
      obtain ⟨pre, hpre, hall⟩ := parseIPv6Loop_chars _ _ _ _ _ _ hst
      rw [hrest, List.append_nil] at hpre
      rw [hin] at hc
      simp only [List.mem_cons] at hc
      rcases hc with rfl | rfl | hc
      · exact Or.inr (Or.inl rfl)
      · exact Or.inr (Or.inl rfl)
      · rw [hpre] at hc; exact hall c hc
    split at h
    · rename_i h0
      intro c hc
      rw [hin, h0] at hc
      simp only [List.mem_cons, List.mem_nil_iff, or_false, or_self] at hc
      exact Or.inr (Or.inl hc)
    · split at h
      · exact absurd h (by simp)
      · rename_i st hst
        exact hloop st hst (parseIPv6Finish_rest st ip h)
  · simp only [hlead, decide_False, if_false, false_and, Bool.false_eq_true] at h
    split at h
    · exact absurd h (by simp)
    · rename_i st hst
      obtain ⟨pre, hpre, hall⟩ := parseIPv6Loop_chars _ _ _ _ _ _ hst
      rw [parseIPv6Finish_rest st ip h, List.append_nil] at hpre
      intro c hc
      rw [hpre] at hc; exact hall c hc

theorem parseIPv6_no_zone (input : List Char) (ip : net.IP)
    (h : net.parseIPv6 input = some (ip, [])) :
    '%' ∉ input ∧ net.parseIPv6Addr input = some ip := by
  unfold net.parseIPv6 at h
  dsimp only at h
  have hz : '%' ∉ input := by
    intro hz
    split at h
    · exact absurd h (by simp)
    · rename_i hne
      split at h
      · exact absurd h (by simp)
      · simp only [Option.some.injEq, Prod.mk.injEq] at h
        exact hne ⟨by simpa using hz, h.2⟩
  have htake : List.takeWhile (fun c => decide (c ≠ '%')) input = input := by
    rw [List.takeWhile_eq_self_iff]
    intro c hc
    simp only [ne_eq, decide_not, Bool.not_eq_eq_eq_not, Bool.not_true, decide_eq_false_iff_not]
    rintro rfl
    exact hz hc
  rw [htake] at h
  refine ⟨hz, ?_⟩
  split at h
  · exact absurd h (by simp)
  · split at h
    · exact absurd h (by simp)
    · rename_i ip1 hip
      simp only [Option.some.injEq, Prod.mk.injEq] at h
      rw [hip, h.1]

theorem parseIPv6_of_addr (input : List Char) (ip : net.IP) (hz : '%' ∉ input)
    (h : net.parseIPv6Addr input = some ip) : net.parseIPv6 input = some (ip, []) := by
  have htake : List.takeWhile (fun c => decide (c ≠ '%')) input = input := by
    rw [List.takeWhile_eq_self_iff]
    intro c hc
    simp only [ne_eq, decide_not, Bool.not_eq_eq_eq_not, Bool.not_true, decide_eq_false_iff_not]
    rintro rfl
    exact hz hc
  have hdrop : List.dropWhile (fun c => decide (c ≠ '%')) input = [] := by
    rw [List.dropWhile_eq_nil_iff]
    intro c hc
    simp only [ne_eq, decide_not, Bool.not_eq_eq_eq_not, Bool.not_true, decide_eq_false_iff_not]
    rintro rfl
    exact hz hc
  unfold net.parseIPv6
  dsimp only
  rw [htake, hdrop, h]
  simp [hz]

theorem parseIPv6_chars (input : List Char) (ip : net.IP)
    (h : net.parseIPv6 input = some (ip, [])) : ∀ c ∈ input, IsIPChar c :=
  parseIPv6Addr_chars input ip (parseIPv6_no_zone input ip h).2

theorem ParseIP_cases (s : Str) (ip : net.IP) (h : net.ParseIP s = some ip) :
    (net.firstSep s = some '.' ∧ ∃ f, net.parseIPv4Fields s = some f ∧ ip = net.v4InV6 f) ∨
      (net.firstSep s = some ':' ∧ net.parseIPv6 s = some (ip, [])) := by
  unfold net.ParseIP at h
  split at h
  · exact absurd h (by simp)
  · rename_i ip1 zone hadd
    split at h
    · exact absurd h (by simp)
    · rename_i hzone
      have hzone : zone = [] := by simpa using hzone
      simp only [Option.some.injEq] at h
      subst h hzone
      unfold net.ParseAddr at hadd
      split at hadd
      · exact absurd hadd (by simp)
      · rename_i c hc
        split at hadd
        · rename_i hdot
          subst hdot
          split at hadd
          · exact absurd hadd (by simp)
          · rename_i f hf
            simp only [Option.some.injEq, Prod.mk.injEq] at hadd
            exact Or.inl ⟨hc, f, hf, hadd.1.symm⟩
        · split at hadd
          · rename_i hcol
            subst hcol
            exact Or.inr ⟨hc, hadd⟩
          · exact absurd hadd (by simp)

theorem ParseIP_chars (s : Str) (ip : net.IP) (h : net.ParseIP s = some ip) :
    s ≠ [] ∧ ∀ c ∈ s, IsIPChar c := by
  rcases ParseIP_cases s ip h with ⟨hsep, f, hf, _⟩ | ⟨hsep, h6⟩
  · refine ⟨List.ne_nil_of_mem (firstSep_mem s _ hsep).1, ?_⟩
    intro c hc
    exact isIPChar_of_digit_or_dot c (parseIPv4Fields_chars s f hf c hc)
  · exact ⟨List.ne_nil_of_mem (firstSep_mem s _ hsep).1, parseIPv6_chars s ip h6⟩

/-! ## Trimming -/

theorem dropWhile_id (s : List Char) (f : Char → Bool) (h : ∀ c ∈ s, f c = false) :
    s.dropWhile f = s := by
  cases s with
  | nil => rfl
  | cons x xs => simp [List.dropWhile, h x (List.mem_cons_self _ _)]

theorem TrimFunc_id (s : Str) (f : Char → Bool) (h : ∀ c ∈ s, f c = false) :
    strings.TrimFunc s f = s := by
  unfold strings.TrimFunc strings.TrimRightFunc strings.TrimLeftFunc
  rw [dropWhile_id s f h, dropWhile_id s.reverse f (fun c hc => h c (List.mem_reverse.mp hc)),
    List.reverse_reverse]

theorem TrimFunc_wrap (s : Str) (f : Char → Bool) (l r : Char) (hl : f l = true)
    (hr : f r = true) (hne : s ≠ []) (h : ∀ c ∈ s, f c = false) :
    strings.TrimFunc (l :: (s ++ [r])) f = s := by
  unfold strings.TrimFunc strings.TrimRightFunc strings.TrimLeftFunc
  have h1 : (l :: (s ++ [r])).dropWhile f = s ++ [r] := by
    cases s with
    | nil => exact absurd rfl hne
    | cons x xs =>
      simp [List.dropWhile, hl, h x (List.mem_cons_self _ _)]
  rw [h1, List.reverse_append, List.reverse_singleton, List.singleton_append]
  have h2 : (r :: s.reverse).dropWhile f = s.reverse := by
    rw [List.dropWhile_cons, if_pos hr]
    exact dropWhile_id _ f (fun c hc => h c (List.mem_reverse.mp hc))
  rw [h2, List.reverse_reverse]

theorem ipChar_range (c : Char) (h : IsIPChar c) :
    (48 ≤ c.toNat ∧ c.toNat ≤ 58) ∨ (65 ≤ c.toNat ∧ c.toNat ≤ 70) ∨
      (97 ≤ c.toNat ∧ c.toNat ≤ 102) ∨ c.toNat = 46 := by
  rcases h with h | h | h
  · unfold net.hexVal at h
    split at h
    · omega
    · split at h
      · omega
      · split at h
        · omega
        · exact absurd rfl h
  · subst h; decide
  · subst h; decide

theorem ipChar_not_space (c : Char) (h : IsIPChar c) : strings.isSpace c = false := by
  have := ipChar_range c h
  simp only [strings.isSpace, Bool.or_eq_false_iff, Bool.and_eq_false_iff, beq_eq_false_iff_ne,
    decide_eq_false_iff_not]
  omega

theorem ipChar_ne (c x : Char) (h : IsIPChar c)
    (hx : ¬ ((48 ≤ x.toNat ∧ x.toNat ≤ 58) ∨ (65 ≤ x.toNat ∧ x.toNat ≤ 70) ∨
      (97 ≤ x.toNat ∧ x.toNat ≤ 102) ∨ x.toNat = 46)) : c ≠ x := by
  rintro rfl
  exact hx (ipChar_range c h)

theorem ipChar_not_quote (c : Char) (h : IsIPChar c) :
    decide (c ∈ [dquote]) = false := by
  have := ipChar_ne c dquote h (by decide)
  simpa using this

theorem ipChar_not_bracket (c : Char) (h : IsIPChar c) :
    decide (c ∈ ['[', ']']) = false := by
  have h1 := ipChar_ne c '[' h (by decide)
  have h2 := ipChar_ne c ']' h (by decide)
  simp [h1, h2]

/-! ## `net.SplitHostPort` -/

theorem IndexByteString_none (s : Str) (c : Char) (h : c ∉ s) :
    net.IndexByteString s c = none := by
  induction s with
  | nil => rfl
  | cons x xs ih =>
    have hx : x ≠ c := fun e => h (e ▸ List.mem_cons_self _ _)
    have hxs : c ∉ xs := fun e => h (List.mem_cons_of_mem _ e)
    simp [net.IndexByteString, hx, ih hxs]

theorem IndexByteString_first (a r : Str) (c : Char) (h : c ∉ a) :
    net.IndexByteString (a ++ c :: r) c = some a.length := by
  induction a with
  | nil => simp [net.IndexByteString]
  | cons x xs ih =>
    have hx : x ≠ c := fun e => h (e ▸ List.mem_cons_self _ _)
    have hxs : c ∉ xs := fun e => h (List.mem_cons_of_mem _ e)
    simp [net.IndexByteString, hx, ih hxs]

theorem LastIndexByteString_none (s : Str) (c : Char) (h : c ∉ s) :
    net.LastIndexByteString s c = none := by
  induction s with
  | nil => rfl
  | cons x xs ih =>
    have hx : x ≠ c := fun e => h (e ▸ List.mem_cons_self _ _)
    have hxs : c ∉ xs := fun e => h (List.mem_cons_of_mem _ e)
    simp [net.LastIndexByteString, hx, ih hxs]

theorem LastIndexByteString_last (a p : Str) (c : Char) (h : c ∉ p) :
    net.LastIndexByteString (a ++ c :: p) c = some a.length := by
  induction a with
  | nil => simp [net.LastIndexByteString, LastIndexByteString_none p c h]
  | cons x xs ih => simp [net.LastIndexByteString, ih]

theorem SplitHostPort_plain (a p : Str) (ha : ∀ c ∈ a, c ≠ ':' ∧ c ≠ '[' ∧ c ≠ ']')
    (hp : ∀ c ∈ p, c ≠ ':' ∧ c ≠ '[' ∧ c ≠ ']') :
    net.SplitHostPort (a ++ ':' :: p) = some (a, p) := by
  have hcp : ':' ∉ p := fun h => (hp _ h).1 rfl
  have hca : ':' ∉ a := fun h => (ha _ h).1 rfl
  have hl : '[' ∉ a ++ ':' :: p := by
    intro h
    rcases List.mem_append.mp h with h | h
    · exact (ha _ h).2.1 rfl
    · rcases List.mem_cons.mp h with h | h
      · exact absurd h (by decide)
      · exact (hp _ h).2.1 rfl
  have hr : ']' ∉ a ++ ':' :: p := by
    intro h
    rcases List.mem_append.mp h with h | h
    · exact (ha _ h).2.2 rfl
    · rcases List.mem_cons.mp h with h | h
      · exact absurd h (by decide)
      · exact (hp _ h).2.2 rfl
  have hhead : (a ++ ':' :: p).head? ≠ some '[' := by
    intro h
    exact hl (List.mem_of_mem_head? h)
  unfold net.SplitHostPort
  rw [LastIndexByteString_last a p ':' hcp]
  simp only [hhead, if_false, List.take_left, IndexByteString_none a ':' hca,
    IndexByteString_none _ '[' hl, IndexByteString_none _ ']' hr, ne_eq, not_true_eq_false]
  simp

theorem SplitHostPort_bracket (a p : Str) (ha : ∀ c ∈ a, c ≠ '[' ∧ c ≠ ']')
    (hp : ∀ c ∈ p, c ≠ ':' ∧ c ≠ '[' ∧ c ≠ ']') :
    net.SplitHostPort ('[' :: (a ++ ']' :: ':' :: p)) = some (a, p) := by
  have hcp : ':' ∉ p := fun h => (hp _ h).1 rfl
  have hlast : net.LastIndexByteString ('[' :: (a ++ ']' :: ':' :: p)) ':' =
      some (a.length + 2) := by
    have : '[' :: (a ++ ']' :: ':' :: p) = ('[' :: (a ++ [']'])) ++ ':' :: p := by simp
    rw [this, LastIndexByteString_last _ p ':' hcp]
    simp
  have hfirst : net.IndexByteString ('[' :: (a ++ ']' :: ':' :: p)) ']' = some (a.length + 1) := by
    have h0 : ']' ∉ '[' :: a := by
      intro h
      rcases List.mem_cons.mp h with h | h
      · exact absurd h (by decide)
      · exact (ha _ h).2 rfl
    have : '[' :: (a ++ ']' :: ':' :: p) = ('[' :: a) ++ ']' :: ':' :: p := by simp
    rw [this, IndexByteString_first _ _ ']' h0]
    simp
  have hl : '[' ∉ a ++ ']' :: ':' :: p := by
    intro h
    rcases List.mem_append.mp h with h | h
    · exact (ha _ h).1 rfl
    · simp only [List.mem_cons] at h
      rcases h with h | h | h
      · exact absurd h (by decide)
      · exact absurd h (by decide)
      · exact (hp _ h).2.1 rfl
  have hr : ']' ∉ ':' :: p := by
    intro h
    rcases List.mem_cons.mp h with h | h
    · exact absurd h (by decide)
    · exact (hp _ h).2.2 rfl
  have hdrop : List.drop (a.length + 1 + 1) ('[' :: (a ++ ']' :: ':' :: p)) = ':' :: p := by
    have : '[' :: (a ++ ']' :: ':' :: p) = ('[' :: (a ++ [']'])) ++ ':' :: p := by simp
    rw [this]
    exact List.drop_left' (by simp)
  have hdrop2 : List.drop (a.length + 2 + 1) ('[' :: (a ++ ']' :: ':' :: p)) = p := by
    have : '[' :: (a ++ ']' :: ':' :: p) = ('[' :: (a ++ [']', ':'])) ++ p := by simp
    rw [this]
    exact List.drop_left' (by simp)
  have htake : List.drop 1 (List.take (a.length + 1) ('[' :: (a ++ ']' :: ':' :: p))) = a := by
    simp
  unfold net.SplitHostPort
  rw [hlast]
  simp only [List.head?_cons, if_true, hfirst]
  rw [if_neg (by simp)]
  rw [hdrop, hdrop2, htake, IndexByteString_none _ ']' hr]
  simp only [List.drop_succ_cons, List.drop_zero, IndexByteString_none _ '[' hl, ne_eq,
    not_true_eq_false, if_false]

theorem SplitHostPort_bracket_only (a : Str) (ha : ']' ∉ a) :
    net.SplitHostPort ('[' :: (a ++ [']'])) = none := by
  have hfirst : net.IndexByteString ('[' :: (a ++ [']'])) ']' = some (a.length + 1) := by
    have h0 : ']' ∉ '[' :: a := by
      intro h
      rcases List.mem_cons.mp h with h | h
      · exact absurd h (by decide)
      · exact ha h
    have : '[' :: (a ++ [']']) = ('[' :: a) ++ ']' :: [] := by simp
    rw [this, IndexByteString_first _ _ ']' h0]
    simp
  unfold net.SplitHostPort
  split
  · rfl
  · simp [hfirst]

/-! ## The encodings of a token -/

theorem ParseIP_none_of_char (s : Str) (c : Char) (hc : c ∈ s) (h : ¬ IsIPChar c) :
    net.ParseIP s = none := by
  cases hp : net.ParseIP s with
  | none => rfl
  | some ip => exact absurd ((ParseIP_chars s ip hp).2 c hc) h

theorem ipv4Literal_fields (a : Str) (h : IsIPv4Literal a) :
    net.firstSep a = some '.' ∧ ∃ f, net.parseIPv4Fields a = some f ∧
      net.ParseIP a = some (net.v4InV6 f) := by
  obtain ⟨hp, hcol⟩ := h
  cases hip : net.ParseIP a with
  | none => exact absurd hip hp
  | some ip =>
    rcases ParseIP_cases a ip hip with ⟨hsep, f, hf, hv⟩ | ⟨hsep, _⟩
    · exact ⟨hsep, f, hf, by rw [hv]⟩
    · exact absurd (firstSep_mem a _ hsep).1 hcol

theorem ipv4Literal_chars (a : Str) (h : IsIPv4Literal a) :
    ∀ c ∈ a, (48 ≤ c.toNat ∧ c.toNat ≤ 57) ∨ c = '.' := by
  obtain ⟨_, f, hf, _⟩ := ipv4Literal_fields a h
  exact parseIPv4Fields_chars a f hf

theorem ParseIP_ipv4_port (a p : Str) (h : IsIPv4Literal a) :
    net.ParseIP (a ++ ':' :: p) = none := by
  obtain ⟨hsep, _, _, _⟩ := ipv4Literal_fields a h
  have hsep1 := firstSep_append a (':' :: p) '.' hsep
  have hf : net.parseIPv4Fields (a ++ ':' :: p) = none := by
    cases hf : net.parseIPv4Fields (a ++ ':' :: p) with
    | none => rfl
    | some f =>
      have := parseIPv4Fields_chars _ f hf ':' (by simp)
      exact absurd this (by decide)
  simp [net.ParseIP, net.ParseAddr, hsep1, hf]

theorem canonical_of_ParseIP (a : Str) (ip : net.IP) (h : net.ParseIP a = some ip) :
    canonical a = net.IP.String ip := by
  simp [canonical, h]

/-- The normalization of a token that has neither quotes nor white space at its
ends: the three attempts of `parseIPToken` on the token itself. -/
theorem parseIPToken_clean (t : Str) (hne : t ≠ [])
    (hq : ∀ c ∈ t, decide (c ∈ [dquote]) = false) (hs : ∀ c ∈ t, strings.isSpace c = false) :
    parseIPToken t =
      match net.ParseIP t with
      | some ip => net.IP.String ip
      | none =>
        match (match net.SplitHostPort t with
          | some (host, _) => net.ParseIP (strings.TrimSpace (strings.Trim host ['[', ']']))
          | none => none) with
        | some ip => net.IP.String ip
        | none =>
          match net.ParseIP (strings.Trim t ['[', ']']) with
          | some ip => net.IP.String ip
          | none => [] := by
  have h1 : strings.TrimSpace (strings.Trim t [dquote]) = t := by
    unfold strings.TrimSpace strings.Trim
    rw [TrimFunc_id t _ hq, TrimFunc_id t _ hs]
  unfold parseIPToken
  simp only [h1, if_neg hne]

theorem isPort_chars (p : Str) (hp : IsPort p) (c : Char) (hc : c ∈ p) : IsIPChar c :=
  Or.inl (hexVal_of_digit c (hp c hc))

theorem trim_host_id (a : Str) (h : ∀ c ∈ a, IsIPChar c) :
    strings.TrimSpace (strings.Trim a ['[', ']']) = a := by
  unfold strings.TrimSpace strings.Trim
  rw [TrimFunc_id a _ (fun c hc => ipChar_not_bracket c (h c hc)),
    TrimFunc_id a _ (fun c hc => ipChar_not_space c (h c hc))]

theorem parseIPToken_ipv4_port (a p : Str) (ha : IsIPv4Literal a) (hp : IsPort p) :
    parseIPToken (a ++ ':' :: p) = canonical a := by
  obtain ⟨_, f, _, hip⟩ := ipv4Literal_fields a ha
  have hac : ∀ c ∈ a, IsIPChar c := (ParseIP_chars a _ hip).2
  have hall : ∀ c ∈ a ++ ':' :: p, IsIPChar c := by
    intro c hc
    rcases List.mem_append.mp hc with hc | hc
    · exact hac c hc
    · rcases List.mem_cons.mp hc with rfl | hc
      · exact Or.inr (Or.inl rfl)
      · exact isPort_chars p hp c hc
  have hsplit : net.SplitHostPort (a ++ ':' :: p) = some (a, p) := by
    apply SplitHostPort_plain
    · intro c hc
      have := ipv4Literal_chars a ha c hc
      refine ⟨?_, ?_, ?_⟩ <;> (rintro rfl; revert this; decide)
    · intro c hc
      have := hp c hc
      refine ⟨?_, ?_, ?_⟩ <;> (rintro rfl; revert this; decide)
  rw [parseIPToken_clean _ (by simp) (fun c hc => ipChar_not_quote c (hall c hc))
    (fun c hc => ipChar_not_space c (hall c hc)), ParseIP_ipv4_port a p ha]
  simp only [hsplit, trim_host_id a hac, hip, canonical]

theorem ipv6Literal_parse (a : Str) (h : IsIPv6Literal a) :
    ∃ ip, net.ParseIP a = some ip ∧ a ≠ [] ∧ ∀ c ∈ a, IsIPChar c := by
  obtain ⟨hp, _⟩ := h
  cases hip : net.ParseIP a with
  | none => exact absurd hip hp
  | some ip => exact ⟨ip, rfl, ParseIP_chars a ip hip⟩

theorem not_ipChar_open : ¬ IsIPChar '[' := by decide

theorem not_ipChar_close : ¬ IsIPChar ']' := by decide

theorem parseIPToken_ipv6_port (a p : Str) (ha : IsIPv6Literal a) (hp : IsPort p) :
    parseIPToken ('[' :: (a ++ ']' :: ':' :: p)) = canonical a := by
  obtain ⟨ip, hip, _, hac⟩ := ipv6Literal_parse a ha
  have hall : ∀ c ∈ '[' :: (a ++ ']' :: ':' :: p), c = '[' ∨ c = ']' ∨ IsIPChar c := by
    intro c hc
    rcases List.mem_cons.mp hc with rfl | hc
    · exact Or.inl rfl
    rcases List.mem_append.mp hc with hc | hc
    · exact Or.inr (Or.inr (hac c hc))
    · rcases List.mem_cons.mp hc with rfl | hc
      · exact Or.inr (Or.inl rfl)
      rcases List.mem_cons.mp hc with rfl | hc
      · exact Or.inr (Or.inr (Or.inr (Or.inl rfl)))
      · exact Or.inr (Or.inr (isPort_chars p hp c hc))
  have hq : ∀ c ∈ '[' :: (a ++ ']' :: ':' :: p), decide (c ∈ [dquote]) = false := by
    intro c hc
    rcases hall c hc with rfl | rfl | h
    · decide
    · decide
    · exact ipChar_not_quote c h
  have hs : ∀ c ∈ '[' :: (a ++ ']' :: ':' :: p), strings.isSpace c = false := by
    intro c hc
    rcases hall c hc with rfl | rfl | h
    · decide
    · decide
    · exact ipChar_not_space c h
  have hsplit : net.SplitHostPort ('[' :: (a ++ ']' :: ':' :: p)) = some (a, p) := by
    apply SplitHostPort_bracket
    · intro c hc
      exact ⟨fun e => not_ipChar_open (e ▸ hac c hc), fun e => not_ipChar_close (e ▸ hac c hc)⟩
    · intro c hc
      have := hp c hc
      refine ⟨?_, ?_, ?_⟩ <;> (rintro rfl; revert this; decide)
  rw [parseIPToken_clean _ (by simp) hq hs,
    ParseIP_none_of_char _ '[' (List.mem_cons_self _ _) not_ipChar_open]
  simp only [hsplit, trim_host_id a hac, hip, canonical]

theorem parseIPToken_ipv6_bracket (a : Str) (ha : IsIPv6Literal a) :
    parseIPToken ('[' :: (a ++ [']'])) = canonical a ∧
      net.ParseIP ('[' :: (a ++ [']'])) = none ∧
      net.SplitHostPort ('[' :: (a ++ [']'])) = none ∧
      strings.Trim ('[' :: (a ++ [']'])) ['[', ']'] = a := by
  obtain ⟨ip, hip, hne, hac⟩ := ipv6Literal_parse a ha
  have hall : ∀ c ∈ '[' :: (a ++ [']']), c = '[' ∨ c = ']' ∨ IsIPChar c := by
    intro c hc
    rcases List.mem_cons.mp hc with rfl | hc
    · exact Or.inl rfl
    rcases List.mem_append.mp hc with hc | hc
    · exact Or.inr (Or.inr (hac c hc))
    · rcases List.mem_cons.mp hc with rfl | hc
      · exact Or.inr (Or.inl rfl)
      · simp at hc
  have hq : ∀ c ∈ '[' :: (a ++ [']']), decide (c ∈ [dquote]) = false := by
    intro c hc
    rcases hall c hc with rfl | rfl | h
    · decide
    · decide
    · exact ipChar_not_quote c h
  have hs : ∀ c ∈ '[' :: (a ++ [']']), strings.isSpace c = false := by
    intro c hc
    rcases hall c hc with rfl | rfl | h
    · decide
    · decide
    · exact ipChar_not_space c h
  have hparse := ParseIP_none_of_char ('[' :: (a ++ [']'])) '[' (List.mem_cons_self _ _)
    not_ipChar_open
  have hsplit : net.SplitHostPort ('[' :: (a ++ [']'])) = none :=
    SplitHostPort_bracket_only a (fun e => not_ipChar_close (hac _ e))
  have htrim : strings.Trim ('[' :: (a ++ [']'])) ['[', ']'] = a :=
    TrimFunc_wrap a _ '[' ']' (by decide) (by decide) hne
      (fun c hc => ipChar_not_bracket c (hac c hc))
  refine ⟨?_, hparse, hsplit, htrim⟩
  rw [parseIPToken_clean _ (by simp) hq hs, hparse]
  simp only [hsplit, htrim, hip, canonical]

/-! ## The addresses `net.ParseIP` returns -/

theorem parseIPv4FieldsLoop_inv (s : List Char) :
    ∀ (prev : Option Char) (st st1 : net.V4State),
      net.parseIPv4FieldsLoop s prev st = some st1 →
      st.fields.length = st.pos → st.pos ≤ 3 → st.val ≤ 255 → (∀ b ∈ st.fields, b < 256) →
      st1.fields.length = st1.pos ∧ st1.pos ≤ 3 ∧ st1.val ≤ 255 ∧ ∀ b ∈ st1.fields, b < 256 := by
  induction s with
  | nil =>
    intro prev st st1 h h1 h2 h3 h4
    simp only [net.parseIPv4FieldsLoop, Option.some.injEq] at h
    subst h
    exact ⟨h1, h2, h3, h4⟩
  | cons x xs ih =>
    intro prev st st1 h h1 h2 h3 h4
    unfold net.parseIPv4FieldsLoop at h
    split at h
    · split at h
      · exact absurd h (by simp)
      · dsimp only at h
        split at h
        · exact absurd h (by simp)
        · rename_i hv
          exact ih _ _ _ h h1 h2 (by simpa using hv) h4
    · split at h
      · split at h
        · exact absurd h (by simp)
        · split at h
          · exact absurd h (by simp)
          · rename_i hpos
            refine ih _ _ _ h (by simp [h1]) (by simp only; omega) (by simp) ?_
            intro b hb
            simp only [List.mem_append, List.mem_singleton] at hb
            rcases hb with hb | rfl
            · exact h4 b hb
            · omega
      · exact absurd h (by simp)

theorem parseIPv4Fields_wf (s : List Char) (f : List Nat) (h : net.parseIPv4Fields s = some f) :
    f.length = 4 ∧ ∀ b ∈ f, b < 256 := by
  unfold net.parseIPv4Fields at h
  split at h
  · exact absurd h (by simp)
  · rename_i st hst
    obtain ⟨h1, h2, h3, h4⟩ := parseIPv4FieldsLoop_inv s _ _ _ hst rfl (by simp) (by simp)
      (by simp)
    split at h
    · exact absurd h (by simp)
    · rename_i hpos
      simp only [Option.some.injEq] at h
      subst h
      refine ⟨by simp [h1]; omega, ?_⟩
      intro b hb
      simp only [List.mem_append, List.mem_singleton] at hb
      rcases hb with hb | rfl
      · exact h4 b hb
      · omega

theorem hexRun_bound (s : List Char) :
    ∀ (acc off acc1 off1 : Nat) (rest : List Char),
      net.hexRun s acc off = some (acc1, off1, rest) → acc ≤ 65535 → acc1 ≤ 65535 := by
  induction s with
  | nil =>
    intro acc off acc1 off1 rest h hb
    simp only [net.hexRun, Option.some.injEq, Prod.mk.injEq] at h
    omega
  | cons x xs ih =>
    intro acc off acc1 off1 rest h hb
    unfold net.hexRun at h
    split at h
    · simp only [Option.some.injEq, Prod.mk.injEq] at h
      omega
    · simp only at h
      split at h
      · exact absurd h (by simp)
      · split at h
        · exact absurd h (by simp)
        · rename_i hacc
          exact ih _ _ _ _ _ h (by omega)

theorem parseIPv6Loop_inv (fuel : Nat) :
    ∀ (s : List Char) (i : Nat) (ell : Option Nat) (ip : List Nat) (st : net.V6State),
      net.parseIPv6Loop fuel s i ell ip = some st →
      ip.length = i → i + 2 * fuel ≤ 16 → (∀ b ∈ ip, b < 256) → (∀ e, ell = some e → e ≤ i) →
      st.ip.length = st.i ∧ st.i ≤ 16 ∧ (∀ b ∈ st.ip, b < 256) ∧
        (∀ e, st.ellipsis = some e → e ≤ st.i) := by
  induction fuel with
  | zero =>
    intro s i ell ip st h h1 h2 h3 h4
    simp only [net.parseIPv6Loop, Option.some.injEq] at h
    subst h
    exact ⟨h1, by simpa using h2, h3, h4⟩
  | succ fuel ih =>
    intro s i ell ip st h h1 h2 h3 h4
    unfold net.parseIPv6Loop at h
    cases hrun : net.hexRun s 0 0 with
    | none => simp [hrun] at h
    | some r =>
      obtain ⟨acc, off, rest⟩ := r
      have hacc : acc ≤ 65535 := hexRun_bound s 0 0 acc off rest hrun (by omega)
      have hip2 : ∀ b ∈ ip ++ [acc / 256, acc % 256], b < 256 := by
        intro b hb
        simp only [List.mem_append, List.mem_cons, List.mem_nil_iff, or_false] at hb
        rcases hb with hb | rfl | rfl
        · exact h3 b hb
        · omega
        · omega
      have hlen2 : (ip ++ [acc / 256, acc % 256]).length = i + 2 := by simp [h1]
      simp only [hrun] at h
      by_cases hoff : off = 0
      · simp [hoff] at h
      rw [if_neg hoff] at h
      by_cases hdot : rest.head? = some '.'
      · rw [if_pos hdot] at h
        split at h
        · exact absurd h (by simp)
        · split at h
          · exact absurd h (by simp)
          · rename_i hroom
            split at h
            · exact absurd h (by simp)
            · rename_i f hf
              obtain ⟨hf4, hfb⟩ := parseIPv4Fields_wf s f hf
              simp only [Option.some.injEq] at h
              subst h
              refine ⟨by simp [h1, hf4], by simp only; omega, ?_, ?_⟩
              · intro b hb
                simp only [List.mem_append] at hb
                rcases hb with hb | hb
                · exact h3 b hb
                · exact hfb b hb
              · intro e he
                have := h4 e he
                simp only
                omega
      rw [if_neg hdot] at h
      rcases rest with _ | ⟨c, rest1⟩
      · simp only [Option.some.injEq] at h
        subst h
        refine ⟨hlen2, by simp only; omega, hip2, ?_⟩
        intro e he
        have := h4 e he
        simp only
        omega
      by_cases hc : c = ':'
      swap
      · simp [hc] at h
      simp only [hc, ne_eq, not_true_eq_false, if_false] at h
      rcases rest1 with _ | ⟨c1, rest2⟩
      · simp at h
      by_cases hc1 : c1 = ':'
      · simp only [hc1, if_true] at h
        split at h
        · exact absurd h (by simp)
        rcases rest2 with _ | ⟨c2, rest3⟩
        · simp only [Option.some.injEq] at h
          subst h
          refine ⟨hlen2, by simp only; omega, hip2, ?_⟩
          intro e he
          simp only [Option.some.injEq] at he
          show e ≤ i + 2
          omega
        · simp only at h
          refine ih _ _ _ _ _ h hlen2 (by omega) hip2 ?_
          intro e he
          simp only [Option.some.injEq] at he
          omega
      · simp only [hc1, if_false] at h
        refine ih _ _ _ _ _ h hlen2 (by omega) hip2 ?_
        intro e he
        have := h4 e he
        omega

theorem parseIPv6Finish_wf (st : net.V6State) (ip : net.IP)
    (h : net.parseIPv6Finish st = some ip) (h1 : st.ip.length = st.i) (h2 : st.i ≤ 16)
    (h3 : ∀ b ∈ st.ip, b < 256) (h4 : ∀ e, st.ellipsis = some e → e ≤ st.i) :
    ip.length = 16 ∧ ∀ b ∈ ip, b < 256 := by
  unfold net.parseIPv6Finish at h
  split at h
  · exact absurd h (by simp)
  · split at h
    · rename_i hlt
      split at h
      · exact absurd h (by simp)
      · rename_i e he
        have hle := h4 e he
        simp only [Option.some.injEq] at h
        subst h
        refine ⟨by simp [h1]; omega, ?_⟩
        intro b hb
        simp only [List.mem_append] at hb
        rcases hb with (hb | hb) | hb
        · exact h3 b (List.mem_of_mem_take hb)
        · rw [List.eq_of_mem_replicate hb]; omega
        · exact h3 b (List.mem_of_mem_drop hb)
    · split at h
      · exact absurd h (by simp)
      · simp only [Option.some.injEq] at h
        subst h
        exact ⟨by omega, h3⟩

theorem parseIPv6Addr_wf (s : List Char) (ip : net.IP) (h : net.parseIPv6Addr s = some ip) :
    ip.length = 16 ∧ ∀ b ∈ ip, b < 256 := by
  rcases parseIPv6Addr_cases s ip h with ⟨_, hip⟩ | ⟨s1, st, _, hst, hfin⟩ | ⟨st, hst, hfin⟩
  · subst hip
    refine ⟨by simp, ?_⟩
    intro b hb
    rw [List.eq_of_mem_replicate hb]
    omega
  · obtain ⟨h1, h2, h3, h4⟩ := parseIPv6Loop_inv 8 s1 0 (some 0) [] st hst rfl (by omega)
      (by simp) (by intro e he; simp only [Option.some.injEq] at he; omega)
    exact parseIPv6Finish_wf st ip hfin h1 h2 h3 h4
  · obtain ⟨h1, h2, h3, h4⟩ := parseIPv6Loop_inv 8 s 0 none [] st hst rfl (by omega)
      (by simp) (by intro e he; exact absurd he (by simp))
    exact parseIPv6Finish_wf st ip hfin h1 h2 h3 h4

theorem ParseIP_wf (s : Str) (ip : net.IP) (h : net.ParseIP s = some ip) :
    ip.length = 16 ∧ ∀ b ∈ ip, b < 256 := by
  rcases ParseIP_cases s ip h with ⟨_, f, hf, hv⟩ | ⟨_, h6⟩
  · obtain ⟨hf4, hfb⟩ := parseIPv4Fields_wf s f hf
    subst hv
    refine ⟨by simp [net.v4InV6, hf4], ?_⟩
    intro b hb
    simp only [net.v4InV6, List.mem_append] at hb
    rcases hb with hb | hb
    · revert b; decide
    · exact hfb b hb
  · exact parseIPv6Addr_wf s ip (parseIPv6_no_zone s ip h6).2

/-! ## The string form of an IPv4 address is read back -/

theorem digits_toNat : ∀ n < 10, (net.digits.getD n '0').toNat = 48 + n := by decide

theorem digits_hexVal : ∀ n < 16, net.hexVal (net.digits.getD n '0') = some n := by decide

theorem appendDecimal_eq (b : List Char) (x : Nat) :
    net.appendDecimal b x = b ++ net.appendDecimal [] x := by
  unfold net.appendDecimal
  by_cases h1 : x ≥ 100 <;> by_cases h2 : x ≥ 10 <;> simp [h1, h2]

theorem parseIPv4FieldsLoop_digit (n : Nat) (hn : n < 10) (cs : List Char) (prev : Option Char)
    (st : net.V4State) (h1 : ¬ (st.digLen = 1 ∧ st.val = 0)) (h2 : st.val * 10 + n ≤ 255) :
    net.parseIPv4FieldsLoop (net.digits.getD n '0' :: cs) prev st =
      net.parseIPv4FieldsLoop cs (some (net.digits.getD n '0'))
        { val := st.val * 10 + n, pos := st.pos, digLen := st.digLen + 1, fields := st.fields } := by
  have ht := digits_toNat n hn
  rw [net.parseIPv4FieldsLoop]
  rw [if_pos (by omega), if_neg h1]
  simp only [ht, Nat.add_sub_cancel_left]
  rw [if_neg (by omega)]

theorem parseIPv4FieldsLoop_octet (x : Nat) (hx : x < 256) (rest : List Char)
    (prev : Option Char) (pos : Nat) (fields : List Nat) :
    ∃ c k, (48 ≤ c.toNat ∧ c.toNat ≤ 57) ∧
      net.parseIPv4FieldsLoop (net.appendDecimal [] x ++ rest) prev
          { val := 0, pos := pos, digLen := 0, fields := fields } =
        net.parseIPv4FieldsLoop rest (some c)
          { val := x, pos := pos, digLen := k, fields := fields } := by
  have hdig : ∀ n, n < 10 → 48 ≤ (net.digits.getD n '0').toNat ∧
      (net.digits.getD n '0').toNat ≤ 57 := by
    intro n hn
    rw [digits_toNat n hn]
    omega
  by_cases h100 : x ≥ 100
  · have h10 : x ≥ 10 := by omega
    refine ⟨net.digits.getD (x % 10) '0', 3, hdig _ (by omega), ?_⟩
    simp only [net.appendDecimal, h100, h10, if_true, List.nil_append, List.cons_append]
    rw [parseIPv4FieldsLoop_digit (x / 100) (by omega) _ _ _ (by simp) (by simp only; omega),
      parseIPv4FieldsLoop_digit (x / 10 % 10) (by omega) _ _ _ (by simp only; omega)
        (by simp only; omega),
      parseIPv4FieldsLoop_digit (x % 10) (by omega) _ _ _ (by simp) (by simp only; omega)]
    congr 2
    simp only
    omega
  · by_cases h10 : x ≥ 10
    · refine ⟨net.digits.getD (x % 10) '0', 2, hdig _ (by omega), ?_⟩
      simp only [net.appendDecimal, h100, h10, if_true, if_false, List.nil_append,
        List.cons_append]
      rw [parseIPv4FieldsLoop_digit (x / 10 % 10) (by omega) _ _ _ (by simp)
          (by simp only; omega),
        parseIPv4FieldsLoop_digit (x % 10) (by omega) _ _ _ (by simp only; omega)
          (by simp only; omega)]
      congr 2
      simp only
      omega
    · refine ⟨net.digits.getD (x % 10) '0', 1, hdig _ (by omega), ?_⟩
      simp only [net.appendDecimal, h100, h10, if_false, List.nil_append, List.cons_append]
      rw [parseIPv4FieldsLoop_digit (x % 10) (by omega) _ _ _ (by simp) (by simp only; omega)]
      congr 2
      simp only
      omega

theorem parseIPv4FieldsLoop_dot (c x : Char) (hc : 48 ≤ c.toNat ∧ c.toNat ≤ 57)
    (rest : List Char) (st : net.V4State) (hpos : st.pos ≠ 3) :
    net.parseIPv4FieldsLoop ('.' :: x :: rest) (some c) st =
      net.parseIPv4FieldsLoop (x :: rest) (some '.')
        { val := 0, pos := st.pos + 1, digLen := 0, fields := st.fields ++ [st.val] } := by
  have hne : c ≠ '.' := by
    rintro rfl
    revert hc
    decide
  rw [net.parseIPv4FieldsLoop]
  rw [if_neg (by decide), if_pos rfl, if_neg (by simp [hne]), if_neg hpos]

theorem appendDecimal_cons (x : Nat) (hx : x < 256) :
    ∃ c cs, net.appendDecimal [] x = c :: cs ∧
      ∀ d ∈ c :: cs, 48 ≤ d.toNat ∧ d.toNat ≤ 57 := by
  have hdig : ∀ n, n < 10 → 48 ≤ (net.digits.getD n '0').toNat ∧
      (net.digits.getD n '0').toNat ≤ 57 := by
    intro n hn
    rw [digits_toNat n hn]
    omega
  by_cases h100 : x ≥ 100
  · have h10 : x ≥ 10 := by omega
    refine ⟨_, _, by simp only [net.appendDecimal, h100, h10, if_true, List.nil_append,
      List.cons_append]; rfl, ?_⟩
    intro d hd
    simp only [List.mem_cons, List.mem_nil_iff, or_false] at hd
    rcases hd with rfl | rfl | rfl
    · exact hdig _ (by omega)
    · exact hdig _ (by omega)
    · exact hdig _ (by omega)
  · by_cases h10 : x ≥ 10
    · refine ⟨_, _, by simp only [net.appendDecimal, h100, h10, if_true, if_false,
        List.nil_append, List.cons_append]; rfl, ?_⟩
      intro d hd
      simp only [List.mem_cons, List.mem_nil_iff, or_false] at hd
      rcases hd with rfl | rfl
      · exact hdig _ (by omega)
      · exact hdig _ (by omega)
    · refine ⟨_, _, by simp only [net.appendDecimal, h100, h10, if_false,
        List.nil_append]; rfl, ?_⟩
      intro d hd
      simp only [List.mem_cons, List.mem_nil_iff, or_false] at hd
      subst hd
      exact hdig _ (by omega)

theorem appendTo4_eq (a b c d : Nat) :
    net.appendTo4 [] [a, b, c, d] =
      net.appendDecimal [] a ++ '.' :: (net.appendDecimal [] b ++ '.' ::
        (net.appendDecimal [] c ++ '.' :: net.appendDecimal [] d)) := by
  simp only [net.appendTo4, List.getD_cons_zero, List.getD_cons_succ]
  rw [appendDecimal_eq _ d, appendDecimal_eq _ c, appendDecimal_eq _ b]
  simp

theorem parseIPv4Fields_appendTo4 (a b c d : Nat) (ha : a < 256) (hb : b < 256) (hc : c < 256)
    (hd : d < 256) : net.parseIPv4Fields (net.appendTo4 [] [a, b, c, d]) = some [a, b, c, d] := by
  rw [appendTo4_eq, net.parseIPv4Fields]
  obtain ⟨xb, rb, hbe, _⟩ := appendDecimal_cons b hb
  obtain ⟨xc, rc, hce, _⟩ := appendDecimal_cons c hc
  obtain ⟨xd, rd, hde, _⟩ := appendDecimal_cons d hd
  obtain ⟨c1, k1, hc1, e1⟩ := parseIPv4FieldsLoop_octet a ha
    ('.' :: (net.appendDecimal [] b ++ '.' ::
      (net.appendDecimal [] c ++ '.' :: net.appendDecimal [] d))) none 0 []
  rw [e1]
  obtain ⟨c2, k2, hc2, e2⟩ := parseIPv4FieldsLoop_octet b hb
    ('.' :: (net.appendDecimal [] c ++ '.' :: net.appendDecimal [] d)) (some '.') 1 [a]
  obtain ⟨c3, k3, hc3, e3⟩ := parseIPv4FieldsLoop_octet c hc
    ('.' :: net.appendDecimal [] d) (some '.') 2 [a, b]
  obtain ⟨c4, k4, hc4, e4⟩ := parseIPv4FieldsLoop_octet d hd [] (some '.') 3 [a, b, c]
  have s1 : net.parseIPv4FieldsLoop ('.' :: (net.appendDecimal [] b ++ '.' ::
      (net.appendDecimal [] c ++ '.' :: net.appendDecimal [] d))) (some c1)
      { val := a, pos := 0, digLen := k1, fields := [] } =
      net.parseIPv4FieldsLoop (net.appendDecimal [] b ++ '.' ::
        (net.appendDecimal [] c ++ '.' :: net.appendDecimal [] d)) (some '.')
        { val := 0, pos := 1, digLen := 0, fields := [a] } := by
    rw [hbe, List.cons_append, parseIPv4FieldsLoop_dot c1 xb hc1 _ _ (by simp)]
    rfl
  have s2 : net.parseIPv4FieldsLoop ('.' :: (net.appendDecimal [] c ++ '.' ::
      net.appendDecimal [] d)) (some c2)
      { val := b, pos := 1, digLen := k2, fields := [a] } =
      net.parseIPv4FieldsLoop (net.appendDecimal [] c ++ '.' :: net.appendDecimal [] d)
        (some '.') { val := 0, pos := 2, digLen := 0, fields := [a, b] } := by
    rw [hce, List.cons_append, parseIPv4FieldsLoop_dot c2 xc hc2 _ _ (by simp)]
    rfl
  have s3 : net.parseIPv4FieldsLoop ('.' :: net.appendDecimal [] d) (some c3)
      { val := c, pos := 2, digLen := k3, fields := [a, b] } =
      net.parseIPv4FieldsLoop (net.appendDecimal [] d)
        (some '.') { val := 0, pos := 3, digLen := 0, fields := [a, b, c] } := by
    rw [hde, parseIPv4FieldsLoop_dot c3 xd hc3 _ _ (by simp)]
    rfl
  rw [List.append_nil] at e4
  rw [s1, e2, s2, e3, s3, e4]
  simp [net.parseIPv4FieldsLoop]

theorem firstSep_skip (pre r : List Char)
    (h : ∀ x ∈ pre, ¬ (x = '.' ∨ x = ':' ∨ x = '%')) :
    net.firstSep (pre ++ r) = net.firstSep r := by
  induction pre with
  | nil => rfl
  | cons x xs ih =>
    rw [List.cons_append, firstSep_cons_of_ne x _ (h x (List.mem_cons_self _ _))]
    exact ih (fun y hy => h y (List.mem_cons_of_mem _ hy))

theorem ParseIP_appendTo4 (a b c d : Nat) (ha : a < 256) (hb : b < 256) (hc : c < 256)
    (hd : d < 256) :
    net.ParseIP (net.appendTo4 [] [a, b, c, d]) = some (net.v4InV6 [a, b, c, d]) := by
  have hsep : net.firstSep (net.appendTo4 [] [a, b, c, d]) = some '.' := by
    rw [appendTo4_eq]
    obtain ⟨x, r, he, hall⟩ := appendDecimal_cons a ha
    rw [firstSep_skip]
    · simp [net.firstSep]
    · intro y hy
      rw [he] at hy
      have := hall y hy
      rintro (rfl | rfl | rfl) <;> revert this <;> decide
  simp [net.ParseIP, net.ParseAddr, hsep, parseIPv4Fields_appendTo4 a b c d ha hb hc hd]

/-! ## The string form of an IPv6 address is read back: the parser -/

theorem appendHex_eq (b : List Char) (x : Nat) :
    net.appendHex b x = b ++ net.appendHex [] x := by
  unfold net.appendHex
  by_cases h1 : x ≥ 0x1000 <;> by_cases h2 : x ≥ 0x100 <;> by_cases h3 : x ≥ 0x10 <;>
    simp [h1, h2, h3]

theorem hexRun_digit (n : Nat) (hn : n < 16) (cs : List Char) (acc off : Nat) (hoff : off ≤ 3)
    (hacc : acc * 16 + n ≤ 65535) :
    net.hexRun (net.digits.getD n '0' :: cs) acc off = net.hexRun cs (acc * 16 + n) (off + 1) := by
  rw [net.hexRun]
  simp only [digits_hexVal n hn]
  rw [if_neg (by omega), if_neg (by omega)]

theorem hexRun_stop (r : List Char) (acc off : Nat) (h : ∀ c ∈ r.head?, net.hexVal c = none) :
    net.hexRun r acc off = some (acc, off, r) := by
  cases r with
  | nil => rfl
  | cons c cs =>
    have hc : net.hexVal c = none := h c (by simp)
    rw [net.hexRun]
    simp only [hc]

theorem hexRun_appendHex (g : Nat) (hg : g < 65536) (r : List Char)
    (h : ∀ c ∈ r.head?, net.hexVal c = none) :
    ∃ k, 0 < k ∧ net.hexRun (net.appendHex [] g ++ r) 0 0 = some (g, k, r) := by
  by_cases h1 : g ≥ 0x1000
  · have h2 : g ≥ 0x100 := by omega
    have h3 : g ≥ 0x10 := by omega
    refine ⟨4, by omega, ?_⟩
    simp only [net.appendHex, h1, h2, h3, if_true, List.nil_append, List.cons_append]
    rw [hexRun_digit _ (by omega) _ _ _ (by omega) (by omega),
      hexRun_digit _ (by omega) _ _ _ (by omega) (by omega),
      hexRun_digit _ (by omega) _ _ _ (by omega) (by omega),
      hexRun_digit _ (by omega) _ _ _ (by omega) (by omega), hexRun_stop r _ _ h]
    congr 2
    omega
  · by_cases h2 : g ≥ 0x100
    · have h3 : g ≥ 0x10 := by omega
      refine ⟨3, by omega, ?_⟩
      simp only [net.appendHex, h1, h2, h3, if_true, if_false, List.nil_append,
        List.cons_append]
      rw [hexRun_digit _ (by omega) _ _ _ (by omega) (by omega),
        hexRun_digit _ (by omega) _ _ _ (by omega) (by omega),
        hexRun_digit _ (by omega) _ _ _ (by omega) (by omega), hexRun_stop r _ _ h]
      congr 2
      omega
    · by_cases h3 : g ≥ 0x10
      · refine ⟨2, by omega, ?_⟩
        simp only [net.appendHex, h1, h2, h3, if_true, if_false, List.nil_append,
          List.cons_append]
        rw [hexRun_digit _ (by omega) _ _ _ (by omega) (by omega),
          hexRun_digit _ (by omega) _ _ _ (by omega) (by omega), hexRun_stop r _ _ h]
        congr 2
        omega
      · refine ⟨1, by omega, ?_⟩
        simp only [net.appendHex, h1, h2, h3, if_false, List.nil_append, List.cons_append]
        rw [hexRun_digit _ (by omega) _ _ _ (by omega) (by omega), hexRun_stop r _ _ h]
        congr 2
        omega

theorem appendHex_cons (g : Nat) (hg : g < 65536) :
    ∃ c cs, net.appendHex [] g = c :: cs ∧ ∀ d ∈ c :: cs, net.hexVal d ≠ none := by
  have hdig : ∀ n, n < 16 → net.hexVal (net.digits.getD n '0') ≠ none := by
    intro n hn
    rw [digits_hexVal n hn]
    simp
  by_cases h1 : g ≥ 0x1000
  · have h2 : g ≥ 0x100 := by omega
    have h3 : g ≥ 0x10 := by omega
    refine ⟨_, _, by simp only [net.appendHex, h1, h2, h3, if_true, List.nil_append,
      List.cons_append]; rfl, ?_⟩
    intro d hd
    simp only [List.mem_cons, List.mem_nil_iff, or_false] at hd
    rcases hd with rfl | rfl | rfl | rfl <;> exact hdig _ (by omega)
  · by_cases h2 : g ≥ 0x100
    · have h3 : g ≥ 0x10 := by omega
      refine ⟨_, _, by simp only [net.appendHex, h1, h2, h3, if_true, if_false,
        List.nil_append, List.cons_append]; rfl, ?_⟩
      intro d hd
      simp only [List.mem_cons, List.mem_nil_iff, or_false] at hd
      rcases hd with rfl | rfl | rfl <;> exact hdig _ (by omega)
    · by_cases h3 : g ≥ 0x10
      · refine ⟨_, _, by simp only [net.appendHex, h1, h2, h3, if_true, if_false,
          List.nil_append, List.cons_append]; rfl, ?_⟩
        intro d hd
        simp only [List.mem_cons, List.mem_nil_iff, or_false] at hd
        rcases hd with rfl | rfl <;> exact hdig _ (by omega)
      · refine ⟨_, _, by simp only [net.appendHex, h1, h2, h3, if_false,
          List.nil_append]; rfl, ?_⟩
        intro d hd
        simp only [List.mem_cons, List.mem_nil_iff, or_false] at hd
        subst hd
        exact hdig _ (by omega)

theorem hexVal_colon : net.hexVal ':' = none := by decide

theorem parseIPv6Loop_last (fuel g : Nat) (hg : g < 65536) (i : Nat) (ell : Option Nat)
    (ip : List Nat) :
    net.parseIPv6Loop (fuel + 1) (net.appendHex [] g) i ell ip =
      some { rest := [], i := i + 2, ellipsis := ell, ip := ip ++ [g / 256, g % 256] } := by
  obtain ⟨k, hk, hrun⟩ := hexRun_appendHex g hg [] (by simp)
  rw [List.append_nil] at hrun
  rw [net.parseIPv6Loop]
  simp only [hrun]
  rw [if_neg (by omega), if_neg (by simp)]

theorem parseIPv6Loop_next (fuel g : Nat) (hg : g < 65536) (c1 : Char) (r : List Char)
    (hc1 : c1 ≠ ':') (i : Nat) (ell : Option Nat) (ip : List Nat) :
    net.parseIPv6Loop (fuel + 1) (net.appendHex [] g ++ ':' :: c1 :: r) i ell ip =
      net.parseIPv6Loop fuel (c1 :: r) (i + 2) ell (ip ++ [g / 256, g % 256]) := by
  obtain ⟨k, hk, hrun⟩ := hexRun_appendHex g hg (':' :: c1 :: r)
    (by simp [hexVal_colon])
  rw [net.parseIPv6Loop]
  simp only [hrun]
  rw [if_neg (by omega), if_neg (by simp)]
  simp [hc1]

theorem parseIPv6Loop_ellipsis_last (fuel g : Nat) (hg : g < 65536) (i : Nat) (ip : List Nat) :
    net.parseIPv6Loop (fuel + 1) (net.appendHex [] g ++ [':', ':']) i none ip =
      some { rest := [], i := i + 2, ellipsis := some (i + 2),
             ip := ip ++ [g / 256, g % 256] } := by
  obtain ⟨k, hk, hrun⟩ := hexRun_appendHex g hg [':', ':'] (by simp [hexVal_colon])
  rw [net.parseIPv6Loop]
  simp only [hrun]
  rw [if_neg (by omega), if_neg (by simp)]
  simp

theorem parseIPv6Loop_ellipsis_next (fuel g : Nat) (hg : g < 65536) (c2 : Char)
    (r : List Char) (i : Nat) (ip : List Nat) :
    net.parseIPv6Loop (fuel + 1) (net.appendHex [] g ++ ':' :: ':' :: c2 :: r) i none ip =
      net.parseIPv6Loop fuel (c2 :: r) (i + 2) (some (i + 2)) (ip ++ [g / 256, g % 256]) := by
  obtain ⟨k, hk, hrun⟩ := hexRun_appendHex g hg (':' :: ':' :: c2 :: r)
    (by simp [hexVal_colon])
  rw [net.parseIPv6Loop]
  simp only [hrun]
  rw [if_neg (by omega), if_neg (by simp)]
  simp

theorem hexGroups_cons (g : Nat) (gs : List Nat) (hg : g < 65536)
    (hgs : ∀ x ∈ gs, x < 65536) :
    ∃ c cs, hexGroups (g :: gs) = c :: cs ∧ net.hexVal c ≠ none := by
  obtain ⟨c, cs, he, hall⟩ := appendHex_cons g hg
  cases gs with
  | nil => exact ⟨c, cs, by simp [hexGroups, he], hall c (List.mem_cons_self _ _)⟩
  | cons g1 gs =>
    exact ⟨c, cs ++ ':' :: hexGroups (g1 :: gs), by simp [hexGroups, he],
      hall c (List.mem_cons_self _ _)⟩

theorem ne_colon_of_hexVal (c : Char) (h : net.hexVal c ≠ none) : c ≠ ':' := by
  rintro rfl
  exact h hexVal_colon

theorem parseIPv6Loop_groups (gs : List Nat) :
    ∀ (fuel i : Nat) (ell : Option Nat) (ip : List Nat), gs ≠ [] → gs.length ≤ fuel →
      (∀ x ∈ gs, x < 65536) →
      net.parseIPv6Loop fuel (hexGroups gs) i ell ip =
        some { rest := [], i := i + 2 * gs.length, ellipsis := ell,
               ip := ip ++ groupBytes gs } := by
  induction gs with
  | nil => intro _ _ _ _ h; exact absurd rfl h
  | cons g gs ih =>
    intro fuel i ell ip _ hfuel hall
    have hg : g < 65536 := hall g (List.mem_cons_self _ _)
    have hgs : ∀ x ∈ gs, x < 65536 := fun x hx => hall x (List.mem_cons_of_mem _ hx)
    obtain ⟨fuel, rfl⟩ : ∃ f, fuel = f + 1 := ⟨fuel - 1, by simp at hfuel; omega⟩
    cases gs with
    | nil =>
      simp only [hexGroups, groupBytes, List.length_singleton]
      rw [parseIPv6Loop_last fuel g hg]
    | cons g1 gs =>
      obtain ⟨c, cs, he, hc⟩ := hexGroups_cons g1 gs (hgs g1 (List.mem_cons_self _ _))
        (fun x hx => hgs x (List.mem_cons_of_mem _ hx))
      rw [hexGroups, he, parseIPv6Loop_next fuel g hg c cs (ne_colon_of_hexVal c hc), ← he,
        ih fuel (i + 2) ell _ (by simp) (by simp at hfuel ⊢; omega) hgs]
      simp only [groupBytes, List.length_cons, List.append_assoc, List.cons_append,
        List.nil_append, net.V6State.mk.injEq, Option.some.injEq, true_and, and_true]
      omega

theorem parseIPv6Loop_groups_ellipsis (gs : List Nat) :
    ∀ (fuel i : Nat) (ip : List Nat), gs ≠ [] → gs.length ≤ fuel →
      (∀ x ∈ gs, x < 65536) →
      net.parseIPv6Loop fuel (hexGroups gs ++ [':', ':']) i none ip =
        some { rest := [], i := i + 2 * gs.length, ellipsis := some (i + 2 * gs.length),
               ip := ip ++ groupBytes gs } := by
  induction gs with
  | nil => intro _ _ _ h; exact absurd rfl h
  | cons g gs ih =>
    intro fuel i ip _ hfuel hall
    have hg : g < 65536 := hall g (List.mem_cons_self _ _)
    have hgs : ∀ x ∈ gs, x < 65536 := fun x hx => hall x (List.mem_cons_of_mem _ hx)
    obtain ⟨fuel, rfl⟩ : ∃ f, fuel = f + 1 := ⟨fuel - 1, by simp at hfuel; omega⟩
    cases gs with
    | nil =>
      simp only [hexGroups, groupBytes, List.length_singleton]
      rw [parseIPv6Loop_ellipsis_last fuel g hg]
    | cons g1 gs =>
      obtain ⟨c, cs, he, hc⟩ := hexGroups_cons g1 gs (hgs g1 (List.mem_cons_self _ _))
        (fun x hx => hgs x (List.mem_cons_of_mem _ hx))
      rw [hexGroups, List.append_assoc, List.cons_append, he, List.cons_append,
        parseIPv6Loop_next fuel g hg c _ (ne_colon_of_hexVal c hc), ← List.cons_append, ← he,
        ih fuel (i + 2) _ (by simp) (by simp at hfuel ⊢; omega) hgs]
      simp only [groupBytes, List.length_cons, List.append_assoc, List.cons_append,
        List.nil_append, net.V6State.mk.injEq, Option.some.injEq, true_and, and_true]
      omega

theorem parseIPv6Loop_groups_ellipsis_groups (gs : List Nat) :
    ∀ (fuel i : Nat) (ip : List Nat) (c2 : Char) (r : List Char), gs ≠ [] →
      gs.length ≤ fuel → (∀ x ∈ gs, x < 65536) →
      net.parseIPv6Loop fuel (hexGroups gs ++ ':' :: ':' :: c2 :: r) i none ip =
        net.parseIPv6Loop (fuel - gs.length) (c2 :: r) (i + 2 * gs.length)
          (some (i + 2 * gs.length)) (ip ++ groupBytes gs) := by
  induction gs with
  | nil => intro _ _ _ _ _ h; exact absurd rfl h
  | cons g gs ih =>
    intro fuel i ip c2 r _ hfuel hall
    have hg : g < 65536 := hall g (List.mem_cons_self _ _)
    have hgs : ∀ x ∈ gs, x < 65536 := fun x hx => hall x (List.mem_cons_of_mem _ hx)
    obtain ⟨fuel, rfl⟩ : ∃ f, fuel = f + 1 := ⟨fuel - 1, by simp at hfuel; omega⟩
    cases gs with
    | nil =>
      simp only [hexGroups, groupBytes, List.length_singleton]
      rw [parseIPv6Loop_ellipsis_next fuel g hg]
      simp
    | cons g1 gs =>
      obtain ⟨c, cs, he, hc⟩ := hexGroups_cons g1 gs (hgs g1 (List.mem_cons_self _ _))
        (fun x hx => hgs x (List.mem_cons_of_mem _ hx))
      rw [hexGroups, List.append_assoc, List.cons_append, he, List.cons_append,
        parseIPv6Loop_next fuel g hg c _ (ne_colon_of_hexVal c hc), ← List.cons_append, ← he,
        ih fuel (i + 2) _ c2 r (by simp) (by simp at hfuel ⊢; omega) hgs]
      have e1 : fuel + 1 - (g :: g1 :: gs).length = fuel - (g1 :: gs).length := by
        simp only [List.length_cons]; omega
      have e2 : i + 2 + 2 * (g1 :: gs).length = i + 2 * (g :: g1 :: gs).length := by
        simp only [List.length_cons]; omega
      rw [e1, e2]
      simp [groupBytes]

theorem hexGroups_chars (gs : List Nat) (hall : ∀ x ∈ gs, x < 65536) :
    ∀ c ∈ hexGroups gs, net.hexVal c ≠ none ∨ c = ':' := by
  induction gs with
  | nil => intro c hc; simp [hexGroups] at hc
  | cons g gs ih =>
    have hg : g < 65536 := hall g (List.mem_cons_self _ _)
    have hgs : ∀ x ∈ gs, x < 65536 := fun x hx => hall x (List.mem_cons_of_mem _ hx)
    obtain ⟨d, ds, he, hd⟩ := appendHex_cons g hg
    cases gs with
    | nil =>
      intro c hc
      simp only [hexGroups] at hc
      rw [he] at hc
      exact Or.inl (hd c hc)
    | cons g1 gs =>
      intro c hc
      simp only [hexGroups, List.mem_append, List.mem_cons] at hc
      rcases hc with hc | rfl | hc
      · rw [he] at hc; exact Or.inl (hd c hc)
      · exact Or.inr rfl
      · exact ih hgs c hc

theorem parseIPv6Addr_no_lead (c : Char) (cs : List Char) (hc : c ≠ ':') :
    net.parseIPv6Addr (c :: cs) =
      (net.parseIPv6Loop 8 (c :: cs) 0 none []).bind net.parseIPv6Finish := by
  unfold net.parseIPv6Addr
  cases h : net.parseIPv6Loop 8 (c :: cs) 0 none [] <;> simp [hc, h]

theorem parseIPv6Addr_lead (c : Char) (cs : List Char) :
    net.parseIPv6Addr (':' :: ':' :: c :: cs) =
      (net.parseIPv6Loop 8 (c :: cs) 0 (some 0) []).bind net.parseIPv6Finish := by
  unfold net.parseIPv6Addr
  cases h : net.parseIPv6Loop 8 (c :: cs) 0 (some 0) [] <;> simp [h]

theorem groupBytes_length (gs : List Nat) : (groupBytes gs).length = 2 * gs.length := by
  induction gs with
  | nil => rfl
  | cons g gs ih => simp only [groupBytes, List.length_cons, ih]; omega

theorem parseIPv6Finish_short (i e : Nat) (ip : List Nat) (hi : i < 16) :
    net.parseIPv6Finish { rest := [], i := i, ellipsis := some e, ip := ip } =
      some (ip.take e ++ List.replicate (16 - i) 0 ++ ip.drop e) := by
  simp [net.parseIPv6Finish, hi]

theorem parseIPv6Finish_full (ip : List Nat) :
    net.parseIPv6Finish { rest := [], i := 16, ellipsis := none, ip := ip } = some ip := by
  simp [net.parseIPv6Finish]

/-- Eight groups without ellipsis are read back. -/
theorem parseIPv6Addr_full (gs : List Nat) (hlen : gs.length = 8)
    (hall : ∀ x ∈ gs, x < 65536) : net.parseIPv6Addr (hexGroups gs) = some (groupBytes gs) := by
  obtain ⟨g, gs1, rfl⟩ : ∃ g gs1, gs = g :: gs1 := by
    cases gs with
    | nil => simp at hlen
    | cons g gs1 => exact ⟨g, gs1, rfl⟩
  obtain ⟨c, cs, he, hc⟩ := hexGroups_cons g gs1 (hall g (List.mem_cons_self _ _))
    (fun x hx => hall x (List.mem_cons_of_mem _ hx))
  rw [he, parseIPv6Addr_no_lead c cs (ne_colon_of_hexVal c hc), ← he,
    parseIPv6Loop_groups _ 8 0 none [] (by simp) (by omega) hall, hlen]
  exact parseIPv6Finish_full _

/-- Groups followed by a final ellipsis are read back. -/
theorem parseIPv6Addr_tail (gs : List Nat) (hne : gs ≠ []) (hlen : gs.length ≤ 7)
    (hall : ∀ x ∈ gs, x < 65536) :
    net.parseIPv6Addr (hexGroups gs ++ [':', ':']) =
      some (groupBytes gs ++ List.replicate (16 - 2 * gs.length) 0) := by
  obtain ⟨g, gs1, rfl⟩ : ∃ g gs1, gs = g :: gs1 := by
    cases gs with
    | nil => exact absurd rfl hne
    | cons g gs1 => exact ⟨g, gs1, rfl⟩
  obtain ⟨c, cs, he, hc⟩ := hexGroups_cons g gs1 (hall g (List.mem_cons_self _ _))
    (fun x hx => hall x (List.mem_cons_of_mem _ hx))
  rw [he, List.cons_append, parseIPv6Addr_no_lead c _ (ne_colon_of_hexVal c hc),
    ← List.cons_append, ← he,
    parseIPv6Loop_groups_ellipsis _ 8 0 [] (by simp) (by omega) hall]
  have hl := groupBytes_length (g :: gs1)
  rw [Nat.zero_add, List.nil_append, Option.some_bind,
    parseIPv6Finish_short _ _ _ (by omega), ← hl, List.take_length, List.drop_length,
    List.append_nil]

/-- Groups after a leading ellipsis are read back. -/
theorem parseIPv6Addr_head (gs : List Nat) (hne : gs ≠ []) (hlen : gs.length ≤ 7)
    (hall : ∀ x ∈ gs, x < 65536) :
    net.parseIPv6Addr (':' :: ':' :: hexGroups gs) =
      some (List.replicate (16 - 2 * gs.length) 0 ++ groupBytes gs) := by
  obtain ⟨g, gs1, rfl⟩ : ∃ g gs1, gs = g :: gs1 := by
    cases gs with
    | nil => exact absurd rfl hne
    | cons g gs1 => exact ⟨g, gs1, rfl⟩
  obtain ⟨c, cs, he, hc⟩ := hexGroups_cons g gs1 (hall g (List.mem_cons_self _ _))
    (fun x hx => hall x (List.mem_cons_of_mem _ hx))
  rw [he, parseIPv6Addr_lead c cs, ← he,
    parseIPv6Loop_groups _ 8 0 (some 0) [] (by simp) (by omega) hall]
  rw [Nat.zero_add, List.nil_append, Option.some_bind,
    parseIPv6Finish_short _ _ _ (by omega), List.take_zero, List.drop_zero, List.nil_append]

/-- Groups around an inner ellipsis are read back. -/
theorem parseIPv6Addr_mid (as bs : List Nat) (ha : as ≠ []) (hb : bs ≠ [])
    (hlen : as.length + bs.length ≤ 7) (hall : ∀ x ∈ as, x < 65536)
    (hbll : ∀ x ∈ bs, x < 65536) :
    net.parseIPv6Addr (hexGroups as ++ ':' :: ':' :: hexGroups bs) =
      some (groupBytes as ++ List.replicate (16 - (2 * as.length + 2 * bs.length)) 0 ++
        groupBytes bs) := by
  obtain ⟨g, gs1, rfl⟩ : ∃ g gs1, as = g :: gs1 := by
    cases as with
    | nil => exact absurd rfl ha
    | cons g gs1 => exact ⟨g, gs1, rfl⟩
  obtain ⟨h, hs1, rfl⟩ : ∃ h hs1, bs = h :: hs1 := by
    cases bs with
    | nil => exact absurd rfl hb
    | cons h hs1 => exact ⟨h, hs1, rfl⟩
  obtain ⟨c, cs, he, hc⟩ := hexGroups_cons g gs1 (hall g (List.mem_cons_self _ _))
    (fun x hx => hall x (List.mem_cons_of_mem _ hx))
  obtain ⟨d, ds, hde, hd⟩ := hexGroups_cons h hs1 (hbll h (List.mem_cons_self _ _))
    (fun x hx => hbll x (List.mem_cons_of_mem _ hx))
  rw [he, List.cons_append, parseIPv6Addr_no_lead c _ (ne_colon_of_hexVal c hc),
    ← List.cons_append, ← he, hde,
    parseIPv6Loop_groups_ellipsis_groups _ 8 0 [] d ds (by simp) (by omega)
      hall, ← hde,
    parseIPv6Loop_groups _ _ _ _ _ (by simp) (by omega) hbll]
  have hl := groupBytes_length (g :: gs1)
  rw [Nat.zero_add, List.nil_append, Option.some_bind,
    parseIPv6Finish_short _ _ _ (by omega), ← hl, List.take_left, List.drop_left]

theorem firstSep_colon (s : List Char) (h : ∀ c ∈ s, net.hexVal c ≠ none ∨ c = ':')
    (hc : ':' ∈ s) : net.firstSep s = some ':' := by
  induction s with
  | nil => simp at hc
  | cons x xs ih =>
    by_cases hx : x = ':'
    · subst hx; simp [net.firstSep]
    · have hv : net.hexVal x ≠ none := by
        rcases h x (List.mem_cons_self _ _) with h1 | h1
        · exact h1
        · exact absurd h1 hx
      have hns : ¬ (x = '.' ∨ x = ':' ∨ x = '%') := by
        rintro (rfl | rfl | rfl)
        · exact hv (by decide)
        · exact hx rfl
        · exact hv (by decide)
      rw [firstSep_cons_of_ne x xs hns]
      refine ih (fun c hc => h c (List.mem_cons_of_mem _ hc)) ?_
      rcases List.mem_cons.mp hc with h1 | h1
      · exact absurd h1.symm hx
      · exact h1

theorem ParseIP_of_v6 (s : List Char) (ip : net.IP)
    (h : ∀ c ∈ s, net.hexVal c ≠ none ∨ c = ':') (hc : ':' ∈ s)
    (hp : net.parseIPv6Addr s = some ip) : net.ParseIP s = some ip := by
  have hz : '%' ∉ s := by
    intro hm
    rcases h _ hm with h1 | h1
    · exact h1 (by decide)
    · exact absurd h1 (by decide)
  simp [net.ParseIP, net.ParseAddr, firstSep_colon s h hc, parseIPv6_of_addr s ip hz hp]

/-! ## The string form of an IPv6 address is read back: the output -/

theorem zeroRunEnd_spec (ip : net.IP) (fuel : Nat) :
    ∀ j, j ≤ net.zeroRunEnd ip fuel j ∧ (j ≤ 8 → net.zeroRunEnd ip fuel j ≤ 8) ∧
      ∀ k, j ≤ k → k < net.zeroRunEnd ip fuel j → net.v6u16 ip k = 0 := by
  induction fuel with
  | zero =>
    intro j
    simp only [net.zeroRunEnd]
    exact ⟨Nat.le_refl _, fun h => h, fun k h1 h2 => by omega⟩
  | succ fuel ih =>
    intro j
    rw [net.zeroRunEnd]
    split
    · rename_i hj
      obtain ⟨h1, h2, h3⟩ := ih (j + 1)
      refine ⟨by omega, fun _ => h2 (by omega), ?_⟩
      intro k hk1 hk2
      rcases Nat.eq_or_lt_of_le hk1 with rfl | hlt
      · exact hj.2
      · exact h3 k hlt hk2
    · exact ⟨Nat.le_refl _, fun h => h, fun k h1 h2 => by omega⟩

/-- The pair found by the zero-run search: no run, or a run of at least two zero groups. -/
theorem findZeros_spec (ip : net.IP) (fuel : Nat) :
    ∀ (i : Nat) (z : Nat × Nat), i + fuel ≤ 8 →
      (z = (255, 255) ∨ (z.1 + 2 ≤ z.2 ∧ z.2 ≤ 8 ∧
        ∀ k, z.1 ≤ k → k < z.2 → net.v6u16 ip k = 0)) →
      (net.findZeros ip fuel i z = (255, 255) ∨
        ((net.findZeros ip fuel i z).1 + 2 ≤ (net.findZeros ip fuel i z).2 ∧
          (net.findZeros ip fuel i z).2 ≤ 8 ∧
          ∀ k, (net.findZeros ip fuel i z).1 ≤ k → k < (net.findZeros ip fuel i z).2 →
            net.v6u16 ip k = 0)) := by
  induction fuel with
  | zero => intro i z _ hz; exact hz
  | succ fuel ih =>
    intro i z hi hz
    rw [net.findZeros]
    apply ih (i + 1) _ (by omega)
    obtain ⟨h1, h2, h3⟩ := zeroRunEnd_spec ip 8 i
    split
    · rename_i hl
      right
      exact ⟨by simp only; omega, h2 (by omega), h3⟩
    · exact hz

theorem list16 (l : List Nat) (h : l.length = 16) :
    ∃ b0 b1 b2 b3 b4 b5 b6 b7 b8 b9 b10 b11 b12 b13 b14 b15,
      l = [b0, b1, b2, b3, b4, b5, b6, b7, b8, b9, b10, b11, b12, b13, b14, b15] := by
  match l, h with
  | [b0, b1, b2, b3, b4, b5, b6, b7, b8, b9, b10, b11, b12, b13, b14, b15], _ =>
    exact ⟨b0, b1, b2, b3, b4, b5, b6, b7, b8, b9, b10, b11, b12, b13, b14, b15, rfl⟩

theorem appendHex_cons_eq (c : Char) (b : List Char) (x : Nat) :
    net.appendHex (c :: b) x = c :: b ++ net.appendHex [] x :=
  appendHex_eq (c :: b) x

theorem appendHex_append_eq (a b : List Char) (x : Nat) :
    net.appendHex (a ++ b) x = a ++ b ++ net.appendHex [] x :=
  appendHex_eq (a ++ b) x

theorem appendTo6Loop_full (ip : net.IP) :
    net.appendTo6Loop ip 255 255 8 0 [] = hexGroups (v6groups ip) := by
  simp [net.appendTo6Loop, hexGroups, v6groups, appendHex_cons_eq, appendHex_append_eq]

theorem appendTo6Loop_shape (ip : net.IP) (zs ze : Nat) (h1 : zs + 2 ≤ ze) (h2 : ze ≤ 8) :
    net.appendTo6Loop ip zs ze 8 0 [] =
      hexGroups ((v6groups ip).take zs) ++ ':' :: ':' :: hexGroups ((v6groups ip).drop ze) := by
  have hzs : zs ≤ 6 := by omega
  interval_cases zs <;> interval_cases ze <;>
    simp [net.appendTo6Loop, hexGroups, v6groups, appendHex_cons_eq, appendHex_append_eq]

theorem groupBytes_zero_split (ip : net.IP) (zs ze : Nat) (h1 : zs + 2 ≤ ze) (h2 : ze ≤ 8)
    (hz : ∀ k, zs ≤ k → k < ze → net.v6u16 ip k = 0) :
    groupBytes ((v6groups ip).take zs) ++
        List.replicate (16 - (2 * ((v6groups ip).take zs).length +
          2 * ((v6groups ip).drop ze).length)) 0 ++
        groupBytes ((v6groups ip).drop ze) = groupBytes (v6groups ip) := by
  have hzs : zs ≤ 6 := by omega
  have e0 := hz 0
  have e1 := hz 1
  have e2 := hz 2
  have e3 := hz 3
  have e4 := hz 4
  have e5 := hz 5
  have e6 := hz 6
  have e7 := hz 7
  clear hz
  interval_cases zs <;> interval_cases ze <;>
    simp only [Nat.le_refl, Nat.zero_le, Nat.lt_irrefl, Nat.reduceLeDiff, Nat.reduceLT,
      forall_const, false_implies, IsEmpty.forall_iff] at e0 e1 e2 e3 e4 e5 e6 e7 <;>
    simp [v6groups, groupBytes, *]

theorem byte_pair (a b : Nat) (hb : b < 256) :
    (a * 256 + b) / 256 = a ∧ (a * 256 + b) % 256 = b := by
  constructor <;> omega

theorem groupBytes_v6groups (ip : net.IP) (hlen : ip.length = 16) (hb : ∀ b ∈ ip, b < 256) :
    groupBytes (v6groups ip) = ip := by
  obtain ⟨b0, b1, b2, b3, b4, b5, b6, b7, b8, b9, b10, b11, b12, b13, b14, b15, rfl⟩ :=
    list16 ip hlen
  simp only [List.mem_cons, List.mem_nil_iff, or_false, forall_eq_or_imp, forall_eq] at hb
  obtain ⟨_, h1, _, h3, _, h5, _, h7, _, h9, _, h11, _, h13, _, h15⟩ := hb
  simp only [v6groups, net.v6u16, groupBytes, Nat.mul_zero, Nat.zero_add,
    List.getD_cons_zero, List.getD_cons_succ,
    (byte_pair b0 b1 h1).1, (byte_pair b0 b1 h1).2, (byte_pair b2 b3 h3).1,
    (byte_pair b2 b3 h3).2, (byte_pair b4 b5 h5).1, (byte_pair b4 b5 h5).2,
    (byte_pair b6 b7 h7).1, (byte_pair b6 b7 h7).2, (byte_pair b8 b9 h9).1,
    (byte_pair b8 b9 h9).2, (byte_pair b10 b11 h11).1, (byte_pair b10 b11 h11).2,
    (byte_pair b12 b13 h13).1, (byte_pair b12 b13 h13).2, (byte_pair b14 b15 h15).1,
    (byte_pair b14 b15 h15).2]

theorem getD_lt (ip : net.IP) (hb : ∀ b ∈ ip, b < 256) (i : Nat) : ip.getD i 0 < 256 := by
  rw [List.getD_eq_getElem?_getD]
  cases h : ip[i]? with
  | none => simp
  | some x => simpa using hb x (List.getElem?_mem h)

theorem v6groups_lt (ip : net.IP) (hb : ∀ b ∈ ip, b < 256) :
    ∀ x ∈ v6groups ip, x < 65536 := by
  intro x hx
  have hlt : ∀ k, net.v6u16 ip k < 65536 := by
    intro k
    have h1 := getD_lt ip hb (2 * k)
    have h2 := getD_lt ip hb (2 * k + 1)
    unfold net.v6u16
    omega
  simp only [v6groups, List.mem_cons, List.mem_nil_iff, or_false] at hx
  rcases hx with rfl | rfl | rfl | rfl | rfl | rfl | rfl | rfl <;> exact hlt _

/-- Groups around an ellipsis, on either side possibly none, are read back. -/
theorem parseIPv6Addr_ellipsis (as bs : List Nat) (hlen : as.length + bs.length ≤ 7)
    (hall : ∀ x ∈ as, x < 65536) (hbll : ∀ x ∈ bs, x < 65536) :
    net.parseIPv6Addr (hexGroups as ++ ':' :: ':' :: hexGroups bs) =
      some (groupBytes as ++ List.replicate (16 - (2 * as.length + 2 * bs.length)) 0 ++
        groupBytes bs) := by
  by_cases ha : as = []
  · subst ha
    by_cases hb : bs = []
    · subst hb
      decide
    · rw [hexGroups, List.nil_append, parseIPv6Addr_head bs hb (by simpa using hlen) hbll]
      simp [groupBytes]
  · by_cases hb : bs = []
    · subst hb
      rw [hexGroups, parseIPv6Addr_tail as ha (by simpa using hlen) hall]
      simp [groupBytes]
    · exact parseIPv6Addr_mid as bs ha hb hlen hall hbll

theorem ParseIP_appendTo6 (ip : net.IP) (hlen : ip.length = 16) (hb : ∀ b ∈ ip, b < 256) :
    net.ParseIP (net.appendTo6 [] ip) = some ip := by
  have hg := v6groups_lt ip hb
  have hglen : (v6groups ip).length = 8 := rfl
  unfold net.appendTo6
  rcases findZeros_spec ip 8 0 (255, 255) (by omega) (Or.inl rfl) with hz | ⟨h1, h2, h3⟩
  · rw [hz, appendTo6Loop_full]
    apply ParseIP_of_v6 _ _ (hexGroups_chars _ hg)
    · simp [v6groups, hexGroups]
    · rw [parseIPv6Addr_full _ hglen hg, groupBytes_v6groups ip hlen hb]
  · generalize net.findZeros ip 8 0 (255, 255) = z at h1 h2 h3
    obtain ⟨zs, ze⟩ := z
    simp only at h1 h2 h3
    have hta : ∀ x ∈ (v6groups ip).take zs, x < 65536 :=
      fun x hx => hg x (List.mem_of_mem_take hx)
    have htb : ∀ x ∈ (v6groups ip).drop ze, x < 65536 :=
      fun x hx => hg x (List.mem_of_mem_drop hx)
    rw [appendTo6Loop_shape ip zs ze h1 h2]
    apply ParseIP_of_v6
    · intro c hc
      simp only [List.mem_append, List.mem_cons] at hc
      rcases hc with hc | rfl | rfl | hc
      · exact hexGroups_chars _ hta c hc
      · exact Or.inr rfl
      · exact Or.inr rfl
      · exact hexGroups_chars _ htb c hc
    · simp
    · rw [parseIPv6Addr_ellipsis _ _ (by simp [hglen]; omega) hta htb,
        groupBytes_zero_split ip zs ze h1 h2 h3, groupBytes_v6groups ip hlen hb]

/-- The string form of an address in 16-byte form is read back by `net.ParseIP`
as the same address. -/
theorem ParseIP_String (ip : net.IP) (hlen : ip.length = 16) (hb : ∀ b ∈ ip, b < 256) :
    net.ParseIP (net.IP.String ip) = some ip := by
  unfold net.IP.String
  rw [if_neg (by omega), if_neg (by omega)]
  cases h4 : net.To4 ip with
  | none => exact ParseIP_appendTo6 ip hlen hb
  | some p4 =>
    obtain ⟨b0, b1, b2, b3, b4, b5, b6, b7, b8, b9, b10, b11, b12, b13, b14, b15, rfl⟩ :=
      list16 ip hlen
    simp only [List.mem_cons, List.mem_nil_iff, or_false, forall_eq_or_imp, forall_eq] at hb
    simp only [net.To4, List.length_cons, List.length_nil, Nat.reduceAdd, Nat.reduceEqDiff,
      if_false, net.isZeros, List.take, List.all_cons, List.all_nil, Bool.and_true,
      Bool.and_eq_true, beq_iff_eq, List.getD_cons_succ, List.getD_cons_zero, true_and,
      List.drop] at h4
    split at h4
    · rename_i hc
      obtain ⟨⟨rfl, rfl, rfl, rfl, rfl, rfl, rfl, rfl, rfl, rfl⟩, rfl, rfl⟩ := hc
      simp only [Option.some.injEq] at h4
      subst h4
      exact ParseIP_appendTo4 b12 b13 b14 b15 hb.2.2.2.2.2.2.2.2.2.2.2.2.1
        hb.2.2.2.2.2.2.2.2.2.2.2.2.2.1 hb.2.2.2.2.2.2.2.2.2.2.2.2.2.2.1
        hb.2.2.2.2.2.2.2.2.2.2.2.2.2.2.2
    · exact absurd h4 (by simp)

/-! ## The results of `parseIPToken` -/

theorem parseIPToken_cases (t : Str) :
    parseIPToken t = [] ∨ ∃ s ip, net.ParseIP s = some ip ∧ parseIPToken t = net.IP.String ip := by
  unfold parseIPToken
  dsimp only
  split
  · exact Or.inl rfl
  · cases h1 : net.ParseIP (strings.TrimSpace (strings.Trim t [dquote])) with
    | some ip => exact Or.inr ⟨_, ip, h1, rfl⟩
    | none =>
      dsimp only
      cases h2 : net.SplitHostPort (strings.TrimSpace (strings.Trim t [dquote])) with
      | some hp =>
        obtain ⟨host, port⟩ := hp
        dsimp only
        cases h3 : net.ParseIP (strings.TrimSpace (strings.Trim host ['[', ']'])) with
        | some ip => exact Or.inr ⟨_, ip, h3, rfl⟩
        | none =>
          dsimp only
          cases h4 : net.ParseIP
              (strings.Trim (strings.TrimSpace (strings.Trim t [dquote])) ['[', ']']) with
          | some ip => exact Or.inr ⟨_, ip, h4, rfl⟩
          | none => exact Or.inl rfl
      | none =>
        dsimp only
        cases h4 : net.ParseIP
            (strings.Trim (strings.TrimSpace (strings.Trim t [dquote])) ['[', ']']) with
        | some ip => exact Or.inr ⟨_, ip, h4, rfl⟩
        | none => exact Or.inl rfl

theorem IndexByteString_some (s : Str) (c : Char) (h : c ∈ s) :
    net.IndexByteString s c ≠ none := by
  induction s with
  | nil => simp at h
  | cons x xs ih =>
    rw [net.IndexByteString]
    split
    · simp
    · rename_i hx
      rcases List.mem_cons.mp h with h1 | h1
      · exact absurd h1.symm hx
      · have := ih h1
        cases hi : net.IndexByteString xs c with
        | none => exact absurd hi this
        | some k => simp

theorem LastIndexByteString_ge (s : Str) (c : Char) :
    ∀ k, s[k]? = some c → ∃ i, net.LastIndexByteString s c = some i ∧ k ≤ i := by
  induction s with
  | nil => intro k h; simp at h
  | cons x xs ih =>
    intro k h
    rw [net.LastIndexByteString]
    cases k with
    | zero =>
      simp only [List.getElem?_cons_zero, Option.some.injEq] at h
      cases hl : net.LastIndexByteString xs c with
      | some j => exact ⟨j + 1, rfl, Nat.zero_le _⟩
      | none => exact ⟨0, by simp [h], Nat.le_refl _⟩
    | succ k =>
      simp only [List.getElem?_cons_succ] at h
      obtain ⟨i, hi, hk⟩ := ih k h
      exact ⟨i + 1, by simp [hi], by omega⟩

theorem SplitHostPort_two_colons (a b d : Str)
    (hhead : (a ++ ':' :: (b ++ ':' :: d)).head? ≠ some '[') :
    net.SplitHostPort (a ++ ':' :: (b ++ ':' :: d)) = none := by
  have h2 : (a ++ ':' :: (b ++ ':' :: d))[a.length + 1 + b.length]? = some ':' := by
    rw [List.getElem?_append_right (by omega)]
    have e : a.length + 1 + b.length - a.length = (b.length) + 1 := by omega
    rw [e, List.getElem?_cons_succ, List.getElem?_append_right (Nat.le_refl _)]
    simp
  have h1 : (a ++ ':' :: (b ++ ':' :: d))[a.length]? = some ':' := by
    rw [List.getElem?_append_right (Nat.le_refl _)]
    simp
  obtain ⟨i, hi, hk⟩ := LastIndexByteString_ge _ ':' _ h2
  have hmem : ':' ∈ (a ++ ':' :: (b ++ ':' :: d)).take i := by
    apply List.getElem?_mem (n := a.length)
    rw [List.getElem?_take_of_lt (by omega)]
    exact h1
  unfold net.SplitHostPort
  simp only [hi, if_neg hhead, IndexByteString_some _ ':' hmem, ne_eq, not_false_eq_true,
    if_true]

theorem appendTo4_chars (a b c d : Nat) (ha : a < 256) (hb : b < 256) (hc : c < 256)
    (hd : d < 256) : ':' ∉ net.appendTo4 [] [a, b, c, d] := by
  intro h
  have := parseIPv4Fields_chars _ _ (parseIPv4Fields_appendTo4 a b c d ha hb hc hd) ':' h
  revert this
  decide

theorem appendTo6_two_colons (ip : net.IP) :
    ∃ a b d, net.appendTo6 [] ip = a ++ ':' :: (b ++ ':' :: d) := by
  unfold net.appendTo6
  rcases findZeros_spec ip 8 0 (255, 255) (by omega) (Or.inl rfl) with hz | ⟨h1, h2, _⟩
  · rw [hz, appendTo6Loop_full]
    exact ⟨net.appendHex [] (net.v6u16 ip 0), net.appendHex [] (net.v6u16 ip 1), _,
      by simp only [v6groups, hexGroups]; rfl⟩
  · rw [appendTo6Loop_shape ip _ _ h1 h2]
    exact ⟨_, [], _, rfl⟩

theorem String_colons (ip : net.IP) (hlen : ip.length = 16) (hb : ∀ b ∈ ip, b < 256) :
    ':' ∉ net.IP.String ip ∨ ∃ a b d, net.IP.String ip = a ++ ':' :: (b ++ ':' :: d) := by
  unfold net.IP.String
  rw [if_neg (by omega), if_neg (by omega)]
  cases h4 : net.To4 ip with
  | none => exact Or.inr (appendTo6_two_colons ip)
  | some p4 =>
    left
    obtain ⟨b0, b1, b2, b3, b4, b5, b6, b7, b8, b9, b10, b11, b12, b13, b14, b15, rfl⟩ :=
      list16 ip hlen
    simp only [List.mem_cons, List.mem_nil_iff, or_false, forall_eq_or_imp, forall_eq] at hb
    simp only [net.To4, List.length_cons, List.length_nil, Nat.reduceAdd, Nat.reduceEqDiff,
      if_false, List.drop] at h4
    split at h4
    · simp only [Option.some.injEq] at h4
      subst h4
      exact appendTo4_chars b12 b13 b14 b15 hb.2.2.2.2.2.2.2.2.2.2.2.2.1
        hb.2.2.2.2.2.2.2.2.2.2.2.2.2.1 hb.2.2.2.2.2.2.2.2.2.2.2.2.2.2.1
        hb.2.2.2.2.2.2.2.2.2.2.2.2.2.2.2
    · exact absurd h4 (by simp)

/-- The string form of an address that `net.ParseIP` returned is a resolved
address: it is read back as the same address, is made of the characters of an IP
literal, and has no port. -/
theorem String_canonical (s : Str) (ip : net.IP) (h : net.ParseIP s = some ip) :
    IsCanonicalIP (net.IP.String ip) ∧ net.IP.String ip ≠ [] := by
  obtain ⟨hlen, hb⟩ := ParseIP_wf s ip h
  have hrt := ParseIP_String ip hlen hb
  obtain ⟨hne, hch⟩ := ParseIP_chars _ ip hrt
  refine ⟨⟨⟨ip, hrt, rfl⟩, hch, ?_⟩, hne⟩
  rcases String_colons ip hlen hb with hc | ⟨a, b, d, he⟩
  · unfold net.SplitHostPort
    rw [LastIndexByteString_none _ ':' hc]
  · rw [he]
    apply SplitHostPort_two_colons
    rw [← he]
    intro hh
    exact not_ipChar_open (hch _ (List.mem_of_mem_head? hh))

theorem parseIPToken_canonical (t : Str) : parseIPToken t = [] ∨ IsCanonicalIP (parseIPToken t) := by
  rcases parseIPToken_cases t with h | ⟨s, ip, hs, h⟩
  · exact Or.inl h
  · right
    rw [h]
    exact (String_canonical s ip hs).1

theorem canonical_literal (a : Str) (h : net.ParseIP a ≠ none) :
    canonical a ≠ [] ∧ IsCanonicalIP (canonical a) := by
  cases hip : net.ParseIP a with
  | none => exact absurd hip h
  | some ip =>
    rw [canonical_of_ParseIP a ip hip]
    exact ⟨(String_canonical a ip hip).2, (String_canonical a ip hip).1⟩

theorem parseXForwardedFor_result (value : Str) (mode : RealIPMode) :
    ∃ s, parseXForwardedFor value mode = some s ∧ (s = [] ∨ ∃ t, s = parseIPToken t) := by
  by_cases h : parseRealIPMode mode = RealIPModeLeft
  · rw [parseXForwardedFor_left value mode h]
    rcases scanLeft_spec (strings.Split value ',') _ 0 (Nat.zero_add _) with
      ⟨k, _, _, _, _, hres⟩ | ⟨_, hres⟩
    · exact ⟨_, hres, Or.inr ⟨_, rfl⟩⟩
    · exact ⟨_, hres, Or.inl rfl⟩
  · rw [parseXForwardedFor_right value mode h]
    rcases scanRight_spec (strings.Split value ',') _ (Nat.le_refl _) with
      ⟨k, _, _, _, _, hres⟩ | ⟨_, hres⟩
    · exact ⟨_, hres, Or.inr ⟨_, rfl⟩⟩
    · exact ⟨_, hres, Or.inl rfl⟩

/-! ## The claims on the resolved address and on the encodings of a token -/

theorem canonicalIP_chars (s : Str) (h : IsCanonicalIP s) :
    ∀ c ∈ s, IsIPChar c ∧ c ≠ '[' ∧ c ≠ ']' ∧ c ≠ dquote ∧ strings.isSpace c = false := by
  intro c hc
  have hi := h.2.1 c hc
  exact ⟨hi, ipChar_ne c _ hi (by decide), ipChar_ne c _ hi (by decide),
    ipChar_ne c _ hi (by decide), ipChar_not_space c hi⟩

/-- C4: for every request (nil included), every mode and every content of the
three inputs, `resolveRealIP` returns a string that is empty or a resolved
address: a string that `net.ParseIP` accepts and that is the string form of the
address it denotes, made of hexadecimal digits, `:` and `.` only (no bracket, no
quote, no white space), and without a port (`net.SplitHostPort` fails on it). -/
theorem resolveRealIP_output (r : Option Request) (mode : RealIPMode) :
    ∃ s, resolveRealIP r mode = some s ∧
      (s = [] ∨
        ((∃ ip, net.ParseIP s = some ip ∧ net.IP.String ip = s) ∧
          (∀ c ∈ s, IsIPChar c ∧ c ≠ '[' ∧ c ≠ ']' ∧ c ≠ dquote ∧
            strings.isSpace c = false) ∧
          net.SplitHostPort s = none)) := by
  have key : ∀ s, (s = [] ∨ IsCanonicalIP s) →
      (s = [] ∨
        ((∃ ip, net.ParseIP s = some ip ∧ net.IP.String ip = s) ∧
          (∀ c ∈ s, IsIPChar c ∧ c ≠ '[' ∧ c ≠ ']' ∧ c ≠ dquote ∧
            strings.isSpace c = false) ∧
          net.SplitHostPort s = none)) := by
    intro s hs
    rcases hs with hs | hs
    · exact Or.inl hs
    · exact Or.inr ⟨hs.1, canonicalIP_chars s hs, hs.2.2⟩
  cases r with
  | none => exact ⟨[], rfl, Or.inl rfl⟩
  | some r =>
    obtain ⟨chain, hchain, hc⟩ := parseXForwardedFor_result (r.Get "X-Forwarded-For".toList) mode
    simp only [resolveRealIP, hchain]
    by_cases h1 : chain = []
    · by_cases h2 : parseIPToken (r.Get "X-Real-IP".toList) = []
      · refine ⟨parseIPToken r.RemoteAddr, by rw [if_neg (by simpa using h1),
          if_neg (by simpa using h2)], key _ (parseIPToken_canonical _)⟩
      · refine ⟨parseIPToken (r.Get "X-Real-IP".toList), by rw [if_neg (by simpa using h1),
          if_pos h2], key _ (parseIPToken_canonical _)⟩
    · refine ⟨chain, by rw [if_pos h1], key _ ?_⟩
      rcases hc with hc | ⟨t, rfl⟩
      · exact Or.inl hc
      · exact parseIPToken_canonical t

/-- C5 (the code does not do it): the token made of a space, a double quote,
`5.5.5.5:1234` and a double quote does not normalize.  `parseIPToken` trims the
quotes first and the white space second, so that the opening quote, which the
leading space protects, stays: the token is trimmed to the quote followed by
`5.5.5.5:1234`, which none of the three attempts accepts.  Without the space the
same token normalizes to `5.5.5.5`. -/
theorem parseIPToken_space_before_quote :
    parseIPToken (' ' :: dquote :: ("5.5.5.5:1234".toList ++ [dquote])) = [] ∧
      strings.TrimSpace (strings.Trim (' ' :: dquote :: ("5.5.5.5:1234".toList ++ [dquote]))
        [dquote]) = dquote :: "5.5.5.5:1234".toList ∧
      parseIPToken (dquote :: ("5.5.5.5:1234".toList ++ [dquote])) = "5.5.5.5".toList := by
  decide

/-- C9: `parseIPToken` accepts the encodings of a host with a port: for a port
`p` (a string of decimal digits), `a:p` for a valid IPv4 literal `a` and `[a]:p`
for a valid IPv6 literal `a` normalize to the canonical form of `a`, which is not
empty and has no port. -/
theorem parseIPToken_host_port (a p : Str) (hp : IsPort p) :
    (IsIPv4Literal a →
      parseIPToken (a ++ ':' :: p) = canonical a ∧ canonical a ≠ [] ∧
        net.SplitHostPort (canonical a) = none) ∧
    (IsIPv6Literal a →
      parseIPToken ('[' :: (a ++ ']' :: ':' :: p)) = canonical a ∧ canonical a ≠ [] ∧
        net.SplitHostPort (canonical a) = none) := by
  constructor
  · intro ha
    have hc := canonical_literal a ha.1
    exact ⟨parseIPToken_ipv4_port a p ha hp, hc.1, hc.2.2.2⟩
  · intro ha
    have hc := canonical_literal a ha.1
    exact ⟨parseIPToken_ipv6_port a p ha hp, hc.1, hc.2.2.2⟩

/-- Witness of C9: the tokens `5.5.5.5:1234` and `[2001:db8::1]:443`. -/
theorem parseIPToken_host_port_witness :
    parseIPToken "5.5.5.5:1234".toList = "5.5.5.5".toList ∧
      parseIPToken "[2001:db8::1]:443".toList = "2001:db8::1".toList := by
  refine ⟨?_, ?_⟩
  · exact (((parseIPToken_host_port "5.5.5.5".toList "1234".toList (by decide)).1
      (by decide)).1).trans (by decide)
  · exact (((parseIPToken_host_port "2001:db8::1".toList "443".toList (by decide)).2
      (by decide)).1).trans (by decide)

/-- C10: `parseIPToken` accepts a bracketed IPv6 literal without a port: for a
valid IPv6 literal `a` the token `[a]` normalizes to the canonical form of `a`,
which is not empty; the direct parse and the host:port split of the token both
fail, and stripping the brackets gives `a`. -/
theorem parseIPToken_bracketed_ipv6 (a : Str) (ha : IsIPv6Literal a) :
    parseIPToken ('[' :: (a ++ [']'])) = canonical a ∧ canonical a ≠ [] ∧
      net.ParseIP ('[' :: (a ++ [']'])) = none ∧
      net.SplitHostPort ('[' :: (a ++ [']'])) = none ∧
      strings.Trim ('[' :: (a ++ [']'])) ['[', ']'] = a := by
  obtain ⟨h1, h2, h3, h4⟩ := parseIPToken_ipv6_bracket a ha
  exact ⟨h1, (canonical_literal a ha.1).1, h2, h3, h4⟩

/-- Witness of C10: the token `[2001:db8::1]`. -/
theorem parseIPToken_bracketed_ipv6_witness :
    parseIPToken "[2001:db8::1]".toList = "2001:db8::1".toList :=
  ((parseIPToken_bracketed_ipv6 "2001:db8::1".toList (by decide)).1).trans (by decide)

/-- C8: for every mode, a request that carries neither an `X-Forwarded-For` nor
an `X-Real-IP` header resolves to the canonical form of the host of its
`RemoteAddr`: of `a` for `a:p` with a valid IPv4 literal `a`, and for `[a]:p` with
a valid IPv6 literal `a`, `p` being a port.  The absent chain header splits into
one empty token, which does not normalize. -/
theorem resolveRealIP_peer_fallback (mode : RealIPMode) (r : Request) (a p : Str)
    (hx : r.Get "X-Forwarded-For".toList = []) (hr : r.Get "X-Real-IP".toList = [])
    (hp : IsPort p) :
    strings.Split [] ',' = [[]] ∧ parseIPToken [] = [] ∧
      (IsIPv4Literal a → r.RemoteAddr = a ++ ':' :: p →
        resolveRealIP (some r) mode = some (canonical a) ∧ canonical a ≠ []) ∧
      (IsIPv6Literal a → r.RemoteAddr = '[' :: (a ++ ']' :: ':' :: p) →
        resolveRealIP (some r) mode = some (canonical a) ∧ canonical a ≠ []) := by
  have h0 : parseIPToken [] = [] := by decide
  have hchain : parseXForwardedFor [] mode = some [] :=
    parseXForwardedFor_none_normalizes [] mode (by
      intro t ht
      have : t = [] := by simpa [strings.Split] using ht
      rw [this, h0])
  have hres : resolveRealIP (some r) mode = some (parseIPToken r.RemoteAddr) := by
    simp only [resolveRealIP, hx, hr, hchain, h0, ne_eq, not_true_eq_false, if_false]
  refine ⟨rfl, h0, ?_, ?_⟩
  · intro ha hra
    rw [hres, hra, parseIPToken_ipv4_port a p ha hp]
    exact ⟨rfl, (canonical_literal a ha.1).1⟩
  · intro ha hra
    rw [hres, hra, parseIPToken_ipv6_port a p ha hp]
    exact ⟨rfl, (canonical_literal a ha.1).1⟩

/-- Witness of C8: the test `fallback remote addr`, peer `4.4.4.4:56789`, and
the peer `[2001:db8::1]:443`, in Left mode. -/
theorem resolveRealIP_peer_fallback_witness :
    resolveRealIP (some (testRequest [] [] "4.4.4.4:56789".toList)) RealIPModeLeft =
        some "4.4.4.4".toList ∧
      resolveRealIP (some (testRequest [] [] "[2001:db8::1]:443".toList)) RealIPModeLeft =
        some "2001:db8::1".toList := by
  refine ⟨?_, ?_⟩
  · exact (((resolveRealIP_peer_fallback RealIPModeLeft
      (testRequest [] [] "4.4.4.4:56789".toList) "4.4.4.4".toList "56789".toList
      (by decide) (by decide) (by decide)).2.2.1 (by decide) (by decide)).1).trans (by decide)
  · exact (((resolveRealIP_peer_fallback RealIPModeLeft
      (testRequest [] [] "[2001:db8::1]:443".toList) "2001:db8::1".toList "443".toList
      (by decide) (by decide) (by decide)).2.2.2 (by decide) (by decide)).1).trans (by decide)

/-! ## The nil request, the absence of failure, idempotence -/

/-- C12: for every mode, `resolveRealIP` of the nil request returns the empty
string; it does not fail, as a read of a header or of the peer address through
the nil pointer would. -/
theorem resolveRealIP_nil (mode : RealIPMode) : resolveRealIP none mode = some [] := by
  rfl

theorem scanLeft_ne_none (tokens : List Str) (left i : Nat) (hi : i + left = tokens.length) :
    scanLeft tokens left i ≠ none := by
  rcases scanLeft_spec tokens left i hi with ⟨_, _, _, _, _, hres⟩ | ⟨_, hres⟩ <;>
    rw [hres] <;> simp

theorem scanRight_ne_none (tokens : List Str) (n : Nat) (hn : n ≤ tokens.length) :
    scanRight tokens n ≠ none := by
  rcases scanRight_spec tokens n hn with ⟨_, _, _, _, _, hres⟩ | ⟨_, hres⟩ <;>
    rw [hres] <;> simp

theorem resolveRealIP_total (r : Option Request) (mode : RealIPMode) :
    ∃ s, resolveRealIP r mode = some s := by
  cases r with
  | none => exact ⟨[], rfl⟩
  | some r =>
    obtain ⟨chain, hchain⟩ := parseXForwardedFor_total (r.Get "X-Forwarded-For".toList) mode
    simp only [resolveRealIP, hchain]
    by_cases h1 : chain ≠ []
    · exact ⟨chain, by rw [if_pos h1]⟩
    · rw [if_neg h1]
      by_cases h2 : parseIPToken (r.Get "X-Real-IP".toList) ≠ []
      · exact ⟨_, by rw [if_pos h2]⟩
      · exact ⟨_, by rw [if_neg h2]⟩

/-- C13: the resolver does not fail on any header content: for every
`X-Forwarded-For` value and every mode the split on commas gives at least one
token, no access `tokens[i]` of the two scan loops is out of range (the loops,
which run at most `len(tokens)` times, do not give the panic `none`),
`parseXForwardedFor` returns a string, the empty one when no token normalizes,
and `resolveRealIP` returns a string for every request. -/
theorem parseXForwardedFor_never_fails (value : Str) (mode : RealIPMode) :
    1 ≤ (strings.Split value ',').length ∧
      (∀ left i, i + left = (strings.Split value ',').length →
        scanLeft (strings.Split value ',') left i ≠ none) ∧
      (∀ n, n ≤ (strings.Split value ',').length →
        scanRight (strings.Split value ',') n ≠ none) ∧
      (∃ s, parseXForwardedFor value mode = some s) ∧
      ((∀ t ∈ strings.Split value ',', parseIPToken t = []) →
        parseXForwardedFor value mode = some []) ∧
      (∀ r, ∃ s, resolveRealIP r mode = some s) := by
  refine ⟨?_, fun left i hi => scanLeft_ne_none _ left i hi,
    fun n hn => scanRight_ne_none _ n hn, parseXForwardedFor_total value mode,
    parseXForwardedFor_none_normalizes value mode, fun r => resolveRealIP_total r mode⟩
  have := Split_ne_nil value ','
  cases h : strings.Split value ',' with
  | nil => exact absurd h this
  | cons t ts => simp

/-- Witness of C13: the chain `unknown, -,`, in which no token normalizes, in
Left mode. -/
theorem parseXForwardedFor_never_fails_witness :
    parseXForwardedFor "unknown, -,".toList RealIPModeLeft = some [] :=
  (parseXForwardedFor_never_fails "unknown, -,".toList RealIPModeLeft).2.2.2.2.1 (by decide)

theorem parseIPToken_nil : parseIPToken [] = [] := by decide

theorem parseIPToken_fixed (s : Str) (h : IsCanonicalIP s) : parseIPToken s = s := by
  obtain ⟨⟨ip, hip, hstr⟩, hch, _⟩ := h
  have hne : s ≠ [] := (ParseIP_chars s ip hip).1
  rw [parseIPToken_clean s hne (fun c hc => ipChar_not_quote c (hch c hc))
    (fun c hc => ipChar_not_space c (hch c hc))]
  simp only [hip, hstr]

/-- C16: normalization is idempotent: `parseIPToken (parseIPToken t)` is
`parseIPToken t` for every token; the empty result stays empty, and the string
form of an address that `net.ParseIP` returned is a fixed point of
`parseIPToken`. -/
theorem parseIPToken_idempotent (t : Str) :
    parseIPToken (parseIPToken t) = parseIPToken t ∧ parseIPToken [] = [] ∧
      (∀ s ip, net.ParseIP s = some ip →
        parseIPToken (net.IP.String ip) = net.IP.String ip) := by
  refine ⟨?_, parseIPToken_nil, fun s ip h => parseIPToken_fixed _ (String_canonical s ip h).1⟩
  rcases parseIPToken_canonical t with h | h
  · rw [h, parseIPToken_nil]
  · exact parseIPToken_fixed _ h

/-- Witness of C16: the token `[2001:0db8::0001]:443` and its canonical form. -/
theorem parseIPToken_idempotent_witness :
    parseIPToken "[2001:0db8::0001]:443".toList = "2001:db8::1".toList ∧
      parseIPToken "2001:db8::1".toList = "2001:db8::1".toList := by
  have h1 : parseIPToken "[2001:0db8::0001]:443".toList = "2001:db8::1".toList := by decide
  refine ⟨h1, ?_⟩
  have h2 := (parseIPToken_idempotent "[2001:0db8::0001]:443".toList).1
  rw [h1] at h2
  exact h2

theorem parseRealIPMode_range (m : Str) :
    parseRealIPMode m = RealIPModeLeft ∨ parseRealIPMode m = RealIPModeRight := by
  by_cases h : IsLeftSpelling m
  · left
    unfold IsLeftSpelling at h
    unfold parseRealIPMode
    simp only [RealIPModeLeft]
    rw [if_pos h]
  · exact Or.inr (parseRealIPMode_of_not_left m h)

theorem parseRealIPMode_parseRealIPMode (m : Str) :
    parseRealIPMode (parseRealIPMode m) = parseRealIPMode m := by
  rcases parseRealIPMode_range m with h | h
  · rw [h]; exact parseRealIPMode_left
  · rw [h]; exact parseRealIPMode_right

/-- C17: `parseRealIPMode` is idempotent and its values are Left and Right; the
mode that `WithServerRealIPMode` stores is Left or Right, and the normalization
that `parseXForwardedFor` applies to it again leaves it as it is. -/
theorem parseRealIPMode_idempotent (m : Str) :
    parseRealIPMode (parseRealIPMode m) = parseRealIPMode m ∧
      (parseRealIPMode m = RealIPModeLeft ∨ parseRealIPMode m = RealIPModeRight) ∧
      (∀ o : serverOptions,
        ((WithServerRealIPMode m o).realIPMode = RealIPModeLeft ∨
          (WithServerRealIPMode m o).realIPMode = RealIPModeRight) ∧
        parseRealIPMode (WithServerRealIPMode m o).realIPMode =
          (WithServerRealIPMode m o).realIPMode ∧
        ∀ value, parseXForwardedFor value (WithServerRealIPMode m o).realIPMode =
          parseXForwardedFor value m) := by
  refine ⟨parseRealIPMode_parseRealIPMode m, parseRealIPMode_range m, ?_⟩
  intro o
  refine ⟨parseRealIPMode_range m, parseRealIPMode_parseRealIPMode m, ?_⟩
  intro value
  simp only [WithServerRealIPMode, parseXForwardedFor, parseRealIPMode_parseRealIPMode]

/-! ## A prefix of the chain, and the agreement of the two modes -/

theorem Split_append (p c : Str) (sep : Char) :
    strings.Split (p ++ sep :: c) sep = strings.Split p sep ++ strings.Split c sep := by
  induction p with
  | nil => simp [strings.Split]
  | cons x xs ih =>
    rw [List.cons_append, strings.Split, strings.Split]
    by_cases hx : x = sep
    · rw [if_pos hx, if_pos hx, ih]
      rfl
    · rw [if_neg hx, if_neg hx, ih]
      cases h : strings.Split xs sep with
      | nil => exact absurd h (Split_ne_nil xs sep)
      | cons t ts => rfl

theorem Split_no_sep (s : Str) (sep : Char) (h : sep ∉ s) : strings.Split s sep = [s] := by
  induction s with
  | nil => rfl
  | cons x xs ih =>
    have hx : x ≠ sep := fun e => h (e ▸ List.mem_cons_self _ _)
    have hxs : sep ∉ xs := fun e => h (List.mem_cons_of_mem _ e)
    rw [strings.Split, if_neg hx, ih hxs]

theorem scanRight_append (front back : List Str) (n : Nat) (hn : n ≤ back.length) (ip : Str)
    (h : scanRight back n = some ip) (hne : ip ≠ []) :
    scanRight (front ++ back) (front.length + n) = some ip := by
  induction n with
  | zero =>
    simp only [scanRight, Option.some.injEq] at h
    exact absurd h.symm hne
  | succ n ih =>
    have hlt : n < back.length := hn
    have hget : (front ++ back)[front.length + n]? = back[n]? := by
      rw [List.getElem?_append_right (by omega)]
      congr 1
      omega
    rw [← Nat.add_assoc, scanRight, hget]
    rw [scanRight] at h
    rw [List.getElem?_eq_getElem hlt] at h ⊢
    dsimp only at h ⊢
    by_cases hp : parseIPToken back[n] ≠ []
    · rw [if_pos hp] at h ⊢
      exact h
    · rw [if_neg hp] at h ⊢
      exact ih (Nat.le_of_lt hlt) h

theorem scanRight_found (tokens : List Str) (h : ∃ t ∈ tokens, Normalizes t) :
    ∃ ip, scanRight tokens tokens.length = some ip ∧ ip ≠ [] := by
  rcases scanRight_spec tokens _ (Nat.le_refl _) with ⟨i, hi, _, hne, _, hres⟩ | ⟨hall, _⟩
  · exact ⟨_, hres, hne⟩
  · obtain ⟨t, ht, hn⟩ := h
    obtain ⟨j, hj, rfl⟩ := List.getElem_of_mem ht
    exact absurd (hall j hj hj) hn

theorem resolveRealIP_of_chain (r : Request) (mode : RealIPMode) (ip : Str)
    (h : parseXForwardedFor (r.Get "X-Forwarded-For".toList) mode = some ip) (hne : ip ≠ []) :
    resolveRealIP (some r) mode = some ip := by
  simp only [resolveRealIP, h]
  rw [if_pos hne]

/-- C14: in Right mode a prefix of the chain does not change the result: for a
chain `c` in which at least one token normalizes and every string `p`,
`parseXForwardedFor` gives the same for `p,c` and for `c`, and `resolveRealIP`
the same address for two requests that carry these chains, whatever else they
carry. -/
theorem parseXForwardedFor_right_front (c p : Str)
    (h : ∃ t ∈ strings.Split c ',', Normalizes t) :
    parseXForwardedFor (p ++ ',' :: c) RealIPModeRight = parseXForwardedFor c RealIPModeRight ∧
      ∀ r1 r2 : Request, r1.Get "X-Forwarded-For".toList = p ++ ',' :: c →
        r2.Get "X-Forwarded-For".toList = c →
        resolveRealIP (some r1) RealIPModeRight = resolveRealIP (some r2) RealIPModeRight := by
  have hm : parseRealIPMode RealIPModeRight ≠ RealIPModeLeft := by decide
  obtain ⟨ip, hip, hne⟩ := scanRight_found _ h
  have h2 : parseXForwardedFor c RealIPModeRight = some ip := by
    rw [parseXForwardedFor_right c _ hm, hip]
  have h1 : parseXForwardedFor (p ++ ',' :: c) RealIPModeRight = some ip := by
    rw [parseXForwardedFor_right _ _ hm, Split_append, List.length_append]
    exact scanRight_append _ _ _ (Nat.le_refl _) ip hip hne
  refine ⟨by rw [h1, h2], ?_⟩
  intro r1 r2 e1 e2
  rw [resolveRealIP_of_chain r1 _ ip (by rw [e1]; exact h1) hne,
    resolveRealIP_of_chain r2 _ ip (by rw [e2]; exact h2) hne]

/-- Witness of C14: the chain `2.2.2.2` and the prefix `6.6.6.6, unknown`. -/
theorem parseXForwardedFor_right_front_witness :
    parseXForwardedFor ("6.6.6.6, unknown".toList ++ ',' :: " 2.2.2.2".toList)
      RealIPModeRight = some "2.2.2.2".toList :=
  ((parseXForwardedFor_right_front " 2.2.2.2".toList "6.6.6.6, unknown".toList
    ⟨" 2.2.2.2".toList, by decide, by decide⟩).1).trans (by decide)

theorem parseXForwardedFor_modes_agree (value : Str) (h : AtMostOneNormalizes value) :
    parseXForwardedFor value RealIPModeLeft = parseXForwardedFor value RealIPModeRight := by
  have hl : parseRealIPMode RealIPModeLeft = RealIPModeLeft := by decide
  have hr : parseRealIPMode RealIPModeRight ≠ RealIPModeLeft := by decide
  rw [parseXForwardedFor_left value _ hl, parseXForwardedFor_right value _ hr]
  rcases scanLeft_spec (strings.Split value ',') _ 0 (Nat.zero_add _) with
    ⟨k, hk, _, hkne, _, hkres⟩ | ⟨hlall, hlres⟩
  · rcases scanRight_spec (strings.Split value ',') _ (Nat.le_refl _) with
      ⟨i, hi, _, hine, _, hires⟩ | ⟨hrall, _⟩
    · have e : k = i := h k i hk hi hkne hine
      subst e
      rw [hkres, hires]
    · exact absurd (hrall k hk hk) hkne
  · rcases scanRight_spec (strings.Split value ',') _ (Nat.le_refl _) with
      ⟨i, hi, _, hine, _, _⟩ | ⟨_, hrres⟩
    · exact absurd (hlall i hi (Nat.zero_le _)) hine
    · rw [hlres, hrres]

theorem atMostOne_of_no_comma (value : Str) (h : ',' ∉ value) : AtMostOneNormalizes value := by
  intro i j hi hj _ _
  rw [Split_no_sep value ',' h] at hi hj
  simp only [List.length_singleton] at hi hj
  omega

/-- C15: Left and Right mode agree on a chain that leaves no choice: when at
most one comma-separated token of the `X-Forwarded-For` value normalizes,
`parseXForwardedFor` gives the same in both modes and `resolveRealIP` the same
address; a value without a comma is such a chain. -/
theorem parseXForwardedFor_left_eq_right (value : Str) :
    (AtMostOneNormalizes value →
      parseXForwardedFor value RealIPModeLeft = parseXForwardedFor value RealIPModeRight ∧
      ∀ r : Request, r.Get "X-Forwarded-For".toList = value →
        resolveRealIP (some r) RealIPModeLeft = resolveRealIP (some r) RealIPModeRight) ∧
    (',' ∉ value → AtMostOneNormalizes value) := by
  refine ⟨?_, atMostOne_of_no_comma value⟩
  intro h
  have hagree := parseXForwardedFor_modes_agree value h
  refine ⟨hagree, ?_⟩
  intro r hr
  simp only [resolveRealIP, hr, hagree]

/-- Witness of C15: the chain `1.1.1.1`, which has no comma. -/
theorem parseXForwardedFor_left_eq_right_witness :
    parseXForwardedFor "1.1.1.1".toList RealIPModeLeft =
      parseXForwardedFor "1.1.1.1".toList RealIPModeRight :=
  ((parseXForwardedFor_left_eq_right "1.1.1.1".toList).1
    ((parseXForwardedFor_left_eq_right "1.1.1.1".toList).2 (by decide))).1

/-! ## Several layers of brackets -/

theorem dropWhile_all_append (front s : List Char) (f : Char → Bool)
    (h : ∀ c ∈ front, f c = true) : (front ++ s).dropWhile f = s.dropWhile f := by
  induction front with
  | nil => rfl
  | cons x xs ih =>
    rw [List.cons_append, List.dropWhile_cons, if_pos (h x (List.mem_cons_self _ _))]
    exact ih (fun c hc => h c (List.mem_cons_of_mem _ hc))

theorem TrimFunc_layers (s front back : Str) (f : Char → Bool) (hne : s ≠ [])
    (hf : ∀ c ∈ front, f c = true) (hb : ∀ c ∈ back, f c = true)
    (h : ∀ c ∈ s, f c = false) : strings.TrimFunc (front ++ s ++ back) f = s := by
  unfold strings.TrimFunc strings.TrimRightFunc strings.TrimLeftFunc
  have h1 : (front ++ s ++ back).dropWhile f = s ++ back := by
    rw [List.append_assoc, dropWhile_all_append front _ f hf]
    cases s with
    | nil => exact absurd rfl hne
    | cons x xs =>
      rw [List.cons_append, List.dropWhile_cons, if_neg (by simp [h x (List.mem_cons_self _ _)])]
  rw [h1, List.reverse_append,
    dropWhile_all_append back.reverse _ f (fun c hc => hb c (List.mem_reverse.mp hc)),
    dropWhile_id s.reverse f (fun c hc => h c (List.mem_reverse.mp hc)), List.reverse_reverse]

theorem LastIndexByteString_lt (x y : Str) (c : Char) (hy : c ∉ y) :
    ∀ i, net.LastIndexByteString (x ++ y) c = some i → i < x.length := by
  induction x with
  | nil =>
    intro i h
    rw [List.nil_append, LastIndexByteString_none y c hy] at h
    exact absurd h (by simp)
  | cons a t ih =>
    intro i h
    rw [List.cons_append, net.LastIndexByteString] at h
    cases hl : net.LastIndexByteString (t ++ y) c with
    | some k =>
      simp only [hl, Option.some.injEq] at h
      have := ih k hl
      simp only [List.length_cons]
      omega
    | none =>
      simp only [hl] at h
      split at h
      · simp only [Option.some.injEq] at h
        simp only [List.length_cons]
        omega
      · exact absurd h (by simp)

theorem SplitHostPort_layers (a : Str) (m n : Nat) (hm : 1 ≤ m) (hn : 1 ≤ n)
    (ha : ∀ c ∈ a, c ≠ '[' ∧ c ≠ ']') : net.SplitHostPort (wrapBrackets m n a) = none := by
  obtain ⟨m, rfl⟩ : ∃ k, m = k + 1 := ⟨m - 1, by omega⟩
  obtain ⟨n, rfl⟩ : ∃ k, n = k + 1 := ⟨n - 1, by omega⟩
  have hshape : wrapBrackets (m + 1) (n + 1) a =
      (List.replicate (m + 1) '[' ++ a) ++ ']' :: List.replicate n ']' := by
    simp [wrapBrackets, List.replicate_succ]
  have hclose : ']' ∉ List.replicate (m + 1) '[' ++ a := by
    intro h
    rcases List.mem_append.mp h with h | h
    · exact absurd (List.eq_of_mem_replicate h) (by decide)
    · exact (ha _ h).2 rfl
  have hfirst : net.IndexByteString (wrapBrackets (m + 1) (n + 1) a) ']' =
      some (List.replicate (m + 1) '[' ++ a).length := by
    rw [hshape]
    exact IndexByteString_first _ _ ']' hclose
  have hhead : (wrapBrackets (m + 1) (n + 1) a).head? = some '[' := by
    simp [wrapBrackets, List.replicate_succ]
  have hcolon : ':' ∉ ']' :: List.replicate n ']' := by
    intro h
    rcases List.mem_cons.mp h with h | h
    · exact absurd h (by decide)
    · exact absurd (List.eq_of_mem_replicate h) (by decide)
  unfold net.SplitHostPort
  cases hl : net.LastIndexByteString (wrapBrackets (m + 1) (n + 1) a) ':' with
  | none => rfl
  | some i =>
    have hi : i < (List.replicate (m + 1) '[' ++ a).length := by
      rw [hshape] at hl
      exact LastIndexByteString_lt _ _ ':' hcolon i hl
    simp only [hhead, if_true, hfirst]
    split
    · rfl
    · rw [if_neg (by omega)]

/-- The token that wraps a valid IPv6 literal in one or more layers of square
brackets normalizes to the canonical form of the literal. -/
theorem parseIPToken_layers (a : Str) (ha : IsIPv6Literal a) (m n : Nat) (hm : 1 ≤ m)
    (hn : 1 ≤ n) : parseIPToken (wrapBrackets m n a) = canonical a := by
  obtain ⟨ip, hip, hne, hac⟩ := ipv6Literal_parse a ha
  have hall : ∀ c ∈ wrapBrackets m n a, c = '[' ∨ c = ']' ∨ IsIPChar c := by
    intro c hc
    simp only [wrapBrackets, List.mem_append] at hc
    rcases hc with (hc | hc) | hc
    · exact Or.inl (List.eq_of_mem_replicate hc)
    · exact Or.inr (Or.inr (hac c hc))
    · exact Or.inr (Or.inl (List.eq_of_mem_replicate hc))
  have hq : ∀ c ∈ wrapBrackets m n a, decide (c ∈ [dquote]) = false := by
    intro c hc
    rcases hall c hc with rfl | rfl | h
    · decide
    · decide
    · exact ipChar_not_quote c h
  have hs : ∀ c ∈ wrapBrackets m n a, strings.isSpace c = false := by
    intro c hc
    rcases hall c hc with rfl | rfl | h
    · decide
    · decide
    · exact ipChar_not_space c h
  have hopen : '[' ∈ wrapBrackets m n a := by
    obtain ⟨k, rfl⟩ : ∃ k, m = k + 1 := ⟨m - 1, by omega⟩
    simp [wrapBrackets, List.replicate_succ]
  have hnonempty : wrapBrackets m n a ≠ [] := List.ne_nil_of_mem hopen
  have hparse := ParseIP_none_of_char _ '[' hopen not_ipChar_open
  have hsplit := SplitHostPort_layers a m n hm hn
    (fun c hc => ⟨fun e => not_ipChar_open (e ▸ hac c hc),
      fun e => not_ipChar_close (e ▸ hac c hc)⟩)
  have htrim : strings.Trim (wrapBrackets m n a) ['[', ']'] = a := by
    unfold strings.Trim wrapBrackets
    apply TrimFunc_layers
    · exact hne
    · intro c hc
      rw [List.eq_of_mem_replicate hc]
      decide
    · intro c hc
      rw [List.eq_of_mem_replicate hc]
      decide
    · exact fun c hc => ipChar_not_bracket c (hac c hc)
  rw [parseIPToken_clean _ hnonempty hq hs, hparse]
  simp only [hsplit, htrim, hip, canonical]

/-- C11, what the code does: `parseIPToken` strips every layer of surrounding
square brackets.  For a valid IPv6 literal `a` the token that wraps `a` in `m`
opening and `n` closing brackets, one or more of each (`[[a]]` is `m = n = 2`),
normalizes to the canonical form of `a`, which is not empty: the direct parse
and the host:port split fail and `strings.Trim` with the cutset `[]` removes all
the brackets. -/
theorem parseIPToken_bracket_layers (a : Str) (ha : IsIPv6Literal a) (m n : Nat)
    (hm : 1 ≤ m) (hn : 1 ≤ n) :
    parseIPToken (wrapBrackets m n a) = canonical a ∧ canonical a ≠ [] ∧
      strings.Trim (wrapBrackets m n a) ['[', ']'] = a := by
  refine ⟨parseIPToken_layers a ha m n hm hn, (canonical_literal a ha.1).1, ?_⟩
  obtain ⟨ip, hip, hne, hac⟩ := ipv6Literal_parse a ha
  have htrim : ∀ m n, strings.Trim (wrapBrackets m n a) ['[', ']'] = a := by
    intro m n
    unfold strings.Trim wrapBrackets
    apply TrimFunc_layers
    · exact hne
    · intro c hc
      rw [List.eq_of_mem_replicate hc]
      decide
    · intro c hc
      rw [List.eq_of_mem_replicate hc]
      decide
    · exact fun c hc => ipChar_not_bracket c (hac c hc)
  exact htrim m n

/-- Witness of C11 as amended: the token `[[2001:db8::1]]`. -/
theorem parseIPToken_bracket_layers_witness :
    parseIPToken "[[2001:db8::1]]".toList = "2001:db8::1".toList :=
  ((parseIPToken_bracket_layers "2001:db8::1".toList (by decide) 2 2 (by decide)
    (by decide)).1).trans (by decide)

/-- Counterexample of C11 as stated: `::1` is a valid IPv6 literal and the
token `[[::1]]`, which wraps it in two layers of brackets, normalizes to `::1`:
`parseIPToken` does not return the empty string for it. -/
theorem parseIPToken_double_bracket_counterexample :
    IsIPv6Literal "::1".toList ∧ parseIPToken "[[::1]]".toList = "::1".toList ∧
      ¬ (parseIPToken "[[::1]]".toList = []) := by
  decide

end Ws
